import Mathlib

/-
Verification of the content-addressed sharded storage engine of the sbox
repository (package sharded, files reader.go / writer part / engine part,
together with sbox types.go and walk.go helpers).

Shallow embedding conventions:

* A byte is modelled as a Nat, a chunk of user data as a List of bytes.
* SHA-256 hex digests are modelled by the function sha256Model.  The engine
  uses the digest only as a deterministic, collision-free content address
  (spec invariant 2: a shard file's content has SHA-256 equal to its name).
  We therefore model the digest of a chunk by the chunk itself, which is the
  canonical injective content address; determinism and injectivity are the
  only properties of SHA-256 the code relies on.
* The shard store (afero Fs shardsFs) is modelled as the list of shard files
  present, each shard file represented by its content (= its address under
  sha256Model).  afero.Exists is list membership, afero.WriteFile appends.
  The three-level fan-out of sbox.HashPath is a bijection between digests
  and paths and is transparent to every claim, so shard files are keyed by
  digest directly.
* The manifest store (afero Fs manifestFs) is modelled as an association
  list from the logical path to the stored manifest file.  A manifest file
  that exists but does not parse as JSON is represented by MFile.corrupt.
  Path normalisation (filepath.Clean inside cleanPath) is the identity on
  the already-clean path keys used here.
* Go int64 sizes and offsets are modelled by Nat where the code keeps them
  non-negative (chunk sizes, manifest sizes, reader offsets), and by Int
  where the API accepts arbitrary values (Seek offsets).
* Time (ModTime) carries no information used by any claim and is omitted
  from the manifest model.
* Errors: the in-memory filesystem operations that cannot fail are modelled
  as total; fallible operations return Except/Option mirroring the source's
  error returns.
-/

/-! ## Bytes, hashes and the shard store -/

abbrev Byte := Nat

abbrev Chunk := List Byte

/-- Model of the lowercase-hex SHA-256 digest used as content address
(sha256.Sum256 + hex.EncodeToString in shardedWriter.flush).  Modelled as the
identity: the digest is a deterministic injective function of the content,
which is exactly what the dedup logic relies on. -/
def sha256Model (b : List Byte) : Chunk := b

/-- The shard store: the set of shard files present in shardsFs, each file
represented by its content (stored at sbox.HashPath of its digest). -/
abbrev ShardStore := List Chunk

/-- Writing one shard, mirroring shardedWriter.flush steps 2-3: if the shard
file already exists (afero.Exists) the byte write is skipped (dedup),
otherwise the bytes are written (afero.WriteFile). -/
def shardWrite (sst : ShardStore) (h : Chunk) : ShardStore :=
  if h ∈ sst then sst else sst ++ [h]

/-- Opening a shard for reading (shardsFs.Open in shardedReader.Read): the
file at the digest's path holds the addressed content; a missing shard is an
open error. -/
def shardOpen (sst : ShardStore) (h : Chunk) : Option (List Byte) :=
  if h ∈ sst then some h else none

/-! ## Manifests and the manifest store -/

/-- sbox.Manifest (types.go) without ModTime.  ChunkSizes is tagged
omitempty in Go, and both the writer and the reader test only
len(ChunkSizes) > 0, so the empty list is the faithful model of an absent
chunkSizes field. -/
structure Manifest where
  chunks : List Chunk
  chunkSizes : List Nat
  size : Nat
deriving DecidableEq

/-- A manifest file as present in manifestFs: either valid JSON of a
manifest, or bytes that json.Unmarshal rejects. -/
inductive MFile where
  | good (m : Manifest)
  | corrupt
deriving DecidableEq

/-- The manifest store: association list from logical path to manifest
file. -/
abbrev ManifestStore := List (String × MFile)

def lookupM (mst : ManifestStore) (p : String) : Option MFile :=
  (mst.find? (fun e => e.1 = p)).map (fun e => e.2)

/-- afero.WriteFile on the manifest path: replaces any prior file. -/
def insertM (mst : ManifestStore) (p : String) (f : MFile) : ManifestStore :=
  mst.filter (fun e => e.1 ≠ p) ++ [(p, f)]

/-- manifestFs.Remove of the single manifest file at p. -/
def removeM (mst : ManifestStore) (p : String) : ManifestStore :=
  mst.filter (fun e => e.1 ≠ p)

/-- manifestFs.RemoveAll of the mirror directory at p: removes every
manifest whose logical path lies under directory p. -/
def removeDirM (mst : ManifestStore) (p : String) : ManifestStore :=
  mst.filter (fun e => ¬ (e.1 = p ∨ (p ++ "/").isPrefixOf e.1))

/-! ## The sharded writer (shardedWriter in the source) -/

/-- shardedWriter state: chunk hashes and sizes recorded so far, the running
logical size, and the accumulator buffer.  The engine and path fields are
passed explicitly to the operations. -/
structure shardedWriter where
  hashes : List Chunk
  chunkSizes : List Nat
  size : Nat
  buffer : List Byte
deriving DecidableEq

/-- shardedWriter.flush on the explicit accumulator components: skip when
the buffer is empty; otherwise hash the buffer, write the shard unless it
already exists, and append the hash and the exact buffered length.  The
caller resets the buffer (w.buffer = w.buffer[:0] in the source). -/
def flushAcc (sst : ShardStore) (hashes : List Chunk) (sizes : List Nat)
    (buffer : List Byte) : ShardStore × List Chunk × List Nat :=
  if buffer = [] then (sst, hashes, sizes)
  else (shardWrite sst (sha256Model buffer), hashes ++ [sha256Model buffer],
        sizes ++ [buffer.length])

/-- The loop body of shardedWriter.Write, with the loop variable
space := chunkSize - len(buffer) written out in place: if space > len(p),
absorb p into the buffer; otherwise fill the buffer with p[:space], flush,
and continue with p[space:].  The hypothesis hcs records that Engine chunk
sizes are always positive (New substitutes the default for non-positive
values); with a zero chunk size the Go loop would not terminate. -/
def writeLoop (cs : Nat) (hcs : 0 < cs) (sst : ShardStore) (hashes : List Chunk)
    (sizes : List Nat) (buffer : List Byte) (p : List Byte) :
    ShardStore × List Chunk × List Nat × List Byte :=
  if hp : p = [] then (sst, hashes, sizes, buffer)
  else if p.length < cs - buffer.length then (sst, hashes, sizes, buffer ++ p)
  else
    writeLoop cs hcs
      (flushAcc sst hashes sizes (buffer ++ p.take (cs - buffer.length))).1
      (flushAcc sst hashes sizes (buffer ++ p.take (cs - buffer.length))).2.1
      (flushAcc sst hashes sizes (buffer ++ p.take (cs - buffer.length))).2.2
      [] (p.drop (cs - buffer.length))
termination_by p.length + buffer.length
decreasing_by
  simp only [List.length_drop, List.length_nil]
  have : 0 < p.length := List.length_pos.mpr hp
  omega

/-- shardedWriter.Write: run the accumulation loop, then add the accepted
byte count to the running size. -/
def shardedWriter.Write (cs : Nat) (hcs : 0 < cs) (sst : ShardStore)
    (w : shardedWriter) (p : List Byte) : ShardStore × shardedWriter :=
  let r := writeLoop cs hcs sst w.hashes w.chunkSizes w.buffer p
  (r.1, ⟨r.2.1, r.2.2.1, w.size + p.length, r.2.2.2⟩)

/-- shardedWriter.Close: flush the residual buffer, assemble the manifest
from the recorded hashes, sizes and running size, and write it to the
manifest path (replacing any prior content). -/
def shardedWriter.Close (sst : ShardStore)
    (mst : ManifestStore) (path : String) (w : shardedWriter) :
    ShardStore × ManifestStore :=
  let r := flushAcc sst w.hashes w.chunkSizes w.buffer
  (r.1, insertM mst path (MFile.good ⟨r.2.1, r.2.2, w.size⟩))

/-- shardedWriter.Seek: only a seek to the current end succeeds (whence
io.SeekStart = 0 with offset equal to the current size; the offset-0 case on
an empty writer is the same point).  The writer state is never modified by
Seek in the source, which the value-only signature reflects. -/
inductive WSeekErr where
  | unsupported
deriving DecidableEq

def shardedWriter.Seek (w : shardedWriter) (offset : Int) (whence : Nat) :
    Except WSeekErr Int :=
  if whence = 0 ∧ offset = (w.size : Int) then Except.ok (w.size : Int)
  else if whence = 0 ∧ offset = 0 ∧ w.size = 0 then Except.ok 0
  else Except.error WSeekErr.unsupported

/-! ## The engine facade (Engine in the source) -/

/-- DefaultChunkSize = 4 * 1024 * 1024 (4 MiB). -/
def DefaultChunkSize : Int := 4 * 1024 * 1024

/-- The chunk-size guard in New: a non-positive chunkSize argument is
silently replaced by the default. -/
def newChunkSize (chunkSize : Int) : Int :=
  if chunkSize ≤ 0 then DefaultChunkSize else chunkSize

/-- The open flags relevant to Engine.OpenFile (os.O_CREATE, os.O_APPEND,
os.O_TRUNC; os.O_WRONLY carries no information in the source). -/
structure OpenFlags where
  create : Bool
  append : Bool
  trunc : Bool
deriving DecidableEq

/-- Engine.Create passes os.O_CREATE|os.O_WRONLY|os.O_TRUNC. -/
def createTruncFlags : OpenFlags := ⟨true, false, true⟩

/-- The append mode exercised by the conformance tests:
os.O_CREATE|os.O_WRONLY|os.O_APPEND. -/
def createAppendFlags : OpenFlags := ⟨true, true, false⟩

/-- The append branch of Engine.OpenFile: seed the writer from the prior
manifest; if the loaded manifest has no chunkSizes but does list chunks,
synthesize uniform sizes (chunkSize for every chunk except the last, and
size - (n-1)*chunkSize for the last).  The accumulator buffer starts
empty. -/
def seedWriter (cs : Nat) (m : Manifest) : shardedWriter :=
  let sizes :=
    if m.chunkSizes.length = 0 ∧ 0 < m.chunks.length then
      List.replicate (m.chunks.length - 1) cs ++
        [m.size - (m.chunks.length - 1) * cs]
    else m.chunkSizes
  ⟨m.chunks, sizes, m.size, []⟩

/-- Engine.OpenFile: a fresh writer, seeded from the existing manifest only
when the file exists, O_APPEND is set and O_TRUNC is not, and the manifest
bytes read and parse; every failure on that path falls through silently to
an empty writer. -/
def engineOpenFile (cs : Nat) (mst : ManifestStore) (path : String)
    (fl : OpenFlags) : shardedWriter :=
  match lookupM mst path with
  | some f =>
      if fl.append ∧ ¬ fl.trunc then
        match f with
        | MFile.good m => seedWriter cs m
        | MFile.corrupt => ⟨[], [], 0, []⟩
      else ⟨[], [], 0, []⟩
  | none => ⟨[], [], 0, []⟩

/-- A sequence of shardedWriter.Write calls. -/
def applyWrites (cs : Nat) (hcs : 0 < cs) (sst : ShardStore)
    (w : shardedWriter) (ps : List (List Byte)) : ShardStore × shardedWriter :=
  ps.foldl (fun acc p => shardedWriter.Write cs hcs acc.1 acc.2 p) (sst, w)

/-- One full writer session: Engine.OpenFile with the given flags, the given
Write calls, then Close. -/
def runSession (cs : Nat) (hcs : 0 < cs) (mst : ManifestStore)
    (sst : ShardStore) (path : String) (fl : OpenFlags)
    (ps : List (List Byte)) : ManifestStore × ShardStore :=
  let r := applyWrites cs hcs sst (engineOpenFile cs mst path fl) ps
  let c := shardedWriter.Close r.1 mst path r.2
  (c.2, c.1)

/-- Engine.Create followed by Write calls and Close. -/
def sessionTrunc (cs : Nat) (hcs : 0 < cs) (mst : ManifestStore)
    (sst : ShardStore) (path : String) (ps : List (List Byte)) :
    ManifestStore × ShardStore :=
  runSession cs hcs mst sst path createTruncFlags ps

/-- Engine.OpenFile in append mode followed by Write calls and Close. -/
def sessionAppend (cs : Nat) (hcs : 0 < cs) (mst : ManifestStore)
    (sst : ShardStore) (path : String) (ps : List (List Byte)) :
    ManifestStore × ShardStore :=
  runSession cs hcs mst sst path createAppendFlags ps

/-- The shard-store effect of a session that is abandoned between the last
flush and the manifest write (Close crashes after flushing the residual
buffer but before afero.WriteFile of the manifest): the shards are
persisted, the manifest store is untouched. -/
def sessionAbortStore (cs : Nat) (hcs : 0 < cs) (mst : ManifestStore)
    (sst : ShardStore) (path : String) (fl : OpenFlags)
    (ps : List (List Byte)) : ShardStore :=
  let r := applyWrites cs hcs sst (engineOpenFile cs mst path fl) ps
  (flushAcc r.1 r.2.hashes r.2.chunkSizes r.2.buffer).1

/-- Errors surfaced by Engine.Open (missing manifest propagates the
filesystem not-found; unparseable bytes propagate the json error). -/
inductive OpenErr where
  | notFound
  | parseError
deriving DecidableEq

/-- Engine.Open: read and parse the manifest (the stitching reader is then
seeded with the result). -/
def engineOpen (mst : ManifestStore) (path : String) : Except OpenErr Manifest :=
  match lookupM mst path with
  | none => Except.error OpenErr.notFound
  | some MFile.corrupt => Except.error OpenErr.parseError
  | some (MFile.good m) => Except.ok m

/-- Engine.Remove: if the manifest file exists, remove only that manifest
file; otherwise remove the mirror directory subtree.  The shard store is
never touched (the source only calls e.manifestFs), which the signature
reflects. -/
def engineRemove (mst : ManifestStore) (path : String) : ManifestStore :=
  if (lookupM mst path).isSome then removeM mst path
  else removeDirM mst path

/-- Engine.Rename: move the manifest file if present, else rename the
mirror directory subtree (rewriting the directory prefix of every manifest
under it). -/
def engineRename (mst : ManifestStore) (oldPath newPath : String) :
    ManifestStore :=
  match lookupM mst oldPath with
  | some f => insertM (removeM mst oldPath) newPath f
  | none =>
      mst.map (fun e =>
        if (oldPath ++ "/").isPrefixOf e.1 then
          (newPath ++ "/" ++ e.1.drop (oldPath.length + 1), e.2)
        else e)

/-- Engine.Copy: read the src manifest bytes and write the same bytes to
the dst manifest path (zero-copy for shards).  A missing src propagates the
read error. -/
def engineCopy (mst : ManifestStore) (src dst : String) :
    Except OpenErr ManifestStore :=
  match lookupM mst src with
  | none => Except.error OpenErr.notFound
  | some f => Except.ok (insertM mst dst f)

/-! ## The stitching reader (shardedReader in the source) -/

/-- Error outcomes of shardedReader.Read.  eof is io.EOF from the size
guard; unexpectedEof is io.ErrUnexpectedEOF for a corrupt manifest
(chunk scan exhausted or chunk index out of range); shardMissing is the
propagated shardsFs.Open error. -/
inductive ReadErr where
  | eof
  | unexpectedEof
  | shardMissing
deriving DecidableEq

/-- The variable-size chunk scan in shardedReader.Read: walk the chunk
sizes accumulating a running start, and return the first index whose
cumulative end exceeds the offset, with the intra-chunk offset.  Written
with the running start subtracted from the offset instead of added to the
accumulator, which is the same comparison (offset < current + sz iff
offset - current < sz). -/
def findChunk : List Nat → Nat → Option (Nat × Nat)
  | [], _ => none
  | sz :: rest, off =>
      if off < sz then some (0, off)
      else (findChunk rest (off - sz)).map (fun io => (io.1 + 1, io.2))

/-- The read loop of shardedReader.Read, at logical offset off with n bytes
of destination space left.  Each iteration resolves the offset to a chunk
index and intra-chunk offset (scanning chunkSizes when present, otherwise
the legacy uniform arithmetic off / cs, off % cs), opens the shard, reads
min(remaining-in-chunk, n) bytes from the intra-chunk offset, and advances.
A zero-byte result with EOF from the shard breaks the loop.  List indexing
uses getD behind the explicit bounds checks the source performs. -/
def readLoop (cs : Nat) (sst : ShardStore) (m : Manifest) (off : Nat)
    (n : Nat) : List Byte × Nat × Option ReadErr :=
  if hn : n = 0 ∨ m.size ≤ off then ([], off, none)
  else
    let res : Option (Nat × Nat) :=
      if m.chunkSizes.length ≠ 0 then findChunk m.chunkSizes off
      else some (off / cs, off % cs)
    match res with
    | none => ([], off, some ReadErr.unexpectedEof)
    | some (i, o) =>
        if m.chunks.length ≤ i then ([], off, some ReadErr.unexpectedEof)
        else
          match shardOpen sst (m.chunks.getD i []) with
          | none => ([], off, some ReadErr.shardMissing)
          | some content =>
              let remaining :=
                if m.chunkSizes.length ≠ 0 then m.chunkSizes.getD i 0 - o
                else cs - o
              let toRead := min remaining n
              let data := (content.drop o).take toRead
              if hd : data.length = 0 then ([], off, none)
              else
                let r := readLoop cs sst m (off + data.length) (n - data.length)
                (data ++ r.1, r.2.1, r.2.2)
termination_by n
decreasing_by exact Nat.sub_lt (by omega) (Nat.pos_of_ne_zero hd)

/-- shardedReader.Read: the size guard reports io.EOF, otherwise the read
loop fills the destination.  Returns (bytes read, new offset, error). -/
def shardedReader.Read (cs : Nat) (sst : ShardStore) (m : Manifest)
    (off : Nat) (n : Nat) : List Byte × Nat × Option ReadErr :=
  if m.size ≤ off then ([], off, some ReadErr.eof)
  else readLoop cs sst m off n

/-- Errors of shardedReader.Seek. -/
inductive RSeekErr where
  | invalidWhence
  | outOfRange
deriving DecidableEq

/-- shardedReader.Seek: map the whence (0 = start, 1 = current, 2 = end) to
a target offset, reject targets outside [0, size], otherwise move.  On
error the reader offset is unchanged. -/
def shardedReader.Seek (m : Manifest) (cur : Nat) (offset : Int)
    (whence : Nat) : Except RSeekErr Nat :=
  match whence with
  | 0 =>
      if offset < 0 ∨ (m.size : Int) < offset then Except.error RSeekErr.outOfRange
      else Except.ok offset.toNat
  | 1 =>
      if (cur : Int) + offset < 0 ∨ (m.size : Int) < (cur : Int) + offset then
        Except.error RSeekErr.outOfRange
      else Except.ok ((cur : Int) + offset).toNat
  | 2 =>
      if (m.size : Int) + offset < 0 ∨ (m.size : Int) < (m.size : Int) + offset then
        Except.error RSeekErr.outOfRange
      else Except.ok ((m.size : Int) + offset).toNat
  | _ => Except.error RSeekErr.invalidWhence

/-- One operation on an open stitching reader. -/
inductive ROp where
  | read (n : Nat)
  | seek (offset : Int) (whence : Nat)
deriving DecidableEq

/-- The observable outcome of one reader operation. -/
inductive ROut where
  | bytes (data : List Byte) (err : Option ReadErr)
  | pos (r : Except RSeekErr Nat)

/-- Running a sequence of Read and Seek operations on a stitching reader,
threading the reader offset, and collecting each operation's observable
outcome. -/
def runReader (cs : Nat) (sst : ShardStore) (m : Manifest) :
    Nat → List ROp → List ROut
  | _, [] => []
  | cur, ROp.read n :: rest =>
      let r := shardedReader.Read cs sst m cur n
      ROut.bytes r.1 r.2.2 :: runReader cs sst m r.2.1 rest
  | cur, ROp.seek offset whence :: rest =>
      match shardedReader.Seek m cur offset whence with
      | Except.ok v => ROut.pos (Except.ok v) :: runReader cs sst m v rest
      | Except.error e => ROut.pos (Except.error e) :: runReader cs sst m cur rest

/-- Opening the reader at offset 0 and reading the whole logical file in
one Read of the full size (the loop in shardedReader.Read fills the whole
destination in one call). -/
def engineReadFull (cs : Nat) (sst : ShardStore) (m : Manifest) : List Byte :=
  (shardedReader.Read cs sst m 0 m.size).1

/-! ## Pure chunking specification

The stream of bytes a writer has accepted determines the chunks it flushes:
splitFull collects the full chunkSize-sized chunks and the residual buffer;
chunksOf adds the final partial chunk that Close flushes.  writeLoop is
proved equal to this specification below (writeLoop_spec). -/

def splitFull (cs : Nat) (b : List Byte) : List Chunk × List Byte :=
  if h : cs ≤ b.length ∧ 0 < cs then
    let r := splitFull cs (b.drop cs)
    (b.take cs :: r.1, r.2)
  else ([], b)
termination_by b.length
decreasing_by
  simp only [List.length_drop]
  omega

/-- The chunk decomposition a full session produces: the full chunks, then
the residual partial chunk if non-empty. -/
def chunksOf (cs : Nat) (b : List Byte) : List Chunk :=
  let r := splitFull cs b
  if r.2 = [] then r.1 else r.1 ++ [r.2]

theorem splitFull_nil (cs : Nat) : splitFull cs [] = ([], []) := by
  rw [splitFull]
  simp

theorem splitFull_of_lt (cs : Nat) (b : List Byte) (h : b.length < cs) :
    splitFull cs b = ([], b) := by
  rw [splitFull]
  have : ¬ (cs ≤ b.length ∧ 0 < cs) := by omega
  simp [this]

theorem splitFull_of_le (cs : Nat) (b : List Byte) (hcs : 0 < cs)
    (h : cs ≤ b.length) :
    splitFull cs b = ((b.take cs) :: (splitFull cs (b.drop cs)).1,
      (splitFull cs (b.drop cs)).2) := by
  rw [splitFull]
  simp [h, hcs]

/-- Reassembling the full chunks and the residue gives back the stream. -/
theorem splitFull_flatten (cs : Nat) (b : List Byte) :
    (splitFull cs b).1.flatten ++ (splitFull cs b).2 = b := by
  induction b using splitFull.induct cs with
  | case1 b hb ih =>
      rw [splitFull_of_le cs b hb.2 hb.1]
      simp only [List.flatten_cons, List.append_assoc, ih]
      exact List.take_append_drop cs b
  | case2 b hb =>
      rw [splitFull]
      simp [hb]

/-- Every full chunk has exactly the configured size. -/
theorem splitFull_mem_length (cs : Nat) (b : List Byte) (c : Chunk)
    (hc : c ∈ (splitFull cs b).1) : c.length = cs := by
  induction b using splitFull.induct cs with
  | case1 b hb ih =>
      rw [splitFull_of_le cs b hb.2 hb.1] at hc
      rcases List.mem_cons.mp hc with h | h
      · subst h
        exact List.length_take_of_le hb.1
      · exact ih h
  | case2 b hb =>
      rw [splitFull] at hc
      simp only [hb, dif_neg, not_false_iff] at hc
      simp at hc

/-- The residue is strictly smaller than the chunk size. -/
theorem splitFull_snd_lt (cs : Nat) (hcs : 0 < cs) (b : List Byte) :
    (splitFull cs b).2.length < cs := by
  induction b using splitFull.induct cs with
  | case1 b hb ih =>
      rw [splitFull_of_le cs b hb.2 hb.1]
      exact ih
  | case2 b hb =>
      rw [splitFull]
      simp only [hb, dif_neg, not_false_iff]
      omega

/-- Chunking a stream in two stages (the already-chunked part, the residue
re-joined with the new bytes) agrees with chunking the joined stream. -/
theorem splitFull_append (cs : Nat) (a p : List Byte) :
    splitFull cs (a ++ p) =
      ((splitFull cs a).1 ++ (splitFull cs ((splitFull cs a).2 ++ p)).1,
       (splitFull cs ((splitFull cs a).2 ++ p)).2) := by
  induction a using splitFull.induct cs with
  | case1 a ha ih =>
      rw [splitFull_of_le cs a ha.2 ha.1,
        splitFull_of_le cs (a ++ p) ha.2 (by simp; omega),
        List.take_append_of_le_length ha.1,
        List.drop_append_of_le_length ha.1, ih]
      simp
  | case2 a ha =>
      have h1 : splitFull cs a = ([], a) := by rw [splitFull, dif_neg ha]
      rw [h1]
      simp

theorem chunksOf_nil (cs : Nat) : chunksOf cs [] = [] := by
  simp [chunksOf, splitFull_nil]

/-- Flattening the chunk decomposition restores the stream. -/
theorem chunksOf_flatten (cs : Nat) (b : List Byte) :
    (chunksOf cs b).flatten = b := by
  unfold chunksOf
  by_cases h : (splitFull cs b).2 = []
  · simp only [h, if_pos]
    have := splitFull_flatten cs b
    rw [h, List.append_nil] at this
    exact this
  · simp only [h, if_neg, not_false_iff, List.flatten_append, List.flatten_cons,
      List.flatten_nil, List.append_nil]
    exact splitFull_flatten cs b

/-- Every chunk of a decomposition is non-empty and at most chunkSize
long. -/
theorem chunksOf_mem_length (cs : Nat) (hcs : 0 < cs) (b : List Byte)
    (c : Chunk) (hc : c ∈ chunksOf cs b) : 0 < c.length ∧ c.length ≤ cs := by
  unfold chunksOf at hc
  by_cases h : (splitFull cs b).2 = []
  · simp only [h, if_pos] at hc
    have := splitFull_mem_length cs b c hc
    omega
  · simp only [h, if_neg, not_false_iff, List.mem_append, List.mem_singleton] at hc
    rcases hc with hc | hc
    · have := splitFull_mem_length cs b c hc
      omega
    · subst hc
      have h1 := splitFull_snd_lt cs hcs b
      have h2 : 0 < (splitFull cs b).2.length := List.length_pos.mpr h
      omega

/-- All chunks except possibly the last have exactly the configured
size. -/
theorem getD_mem_of_lt {c : Type} (l : List c) (i : Nat) (d : c)
    (h : i < l.length) : l.getD i d ∈ l := by
  rw [List.getD_eq_getElem l d h]
  exact List.getElem_mem h

theorem chunksOf_nonlast_length (cs : Nat) (b : List Byte) (i : Nat)
    (hi : i + 1 < (chunksOf cs b).length) :
    ((chunksOf cs b).getD i []).length = cs := by
  unfold chunksOf at *
  by_cases h : (splitFull cs b).2 = []
  · simp only [h, if_pos] at *
    exact splitFull_mem_length cs b _ (getD_mem_of_lt _ _ _ (by omega))
  · simp only [h, if_neg, not_false_iff] at *
    rw [List.length_append, List.length_singleton] at hi
    rw [List.getD_append _ _ _ _ (by omega)]
    exact splitFull_mem_length cs b _ (getD_mem_of_lt _ _ _ (by omega))

/-- The number of full chunks is the floor division of the length. -/
theorem splitFull_fst_length (cs : Nat) (hcs : 0 < cs) (b : List Byte) :
    (splitFull cs b).1.length = b.length / cs := by
  induction b using splitFull.induct cs with
  | case1 b hb ih =>
      rw [splitFull_of_le cs b hb.2 hb.1]
      simp only [List.length_cons, ih, List.length_drop]
      rw [Nat.div_eq_sub_div hcs hb.1]
  | case2 b hb =>
      have hlt : b.length < cs := by omega
      rw [splitFull_of_lt cs b hlt]
      rw [Nat.div_eq_of_lt hlt]
      rfl

/-- The residue length is the length modulo chunkSize. -/
theorem splitFull_snd_length (cs : Nat) (hcs : 0 < cs) (b : List Byte) :
    (splitFull cs b).2.length = b.length % cs := by
  induction b using splitFull.induct cs with
  | case1 b hb ih =>
      rw [splitFull_of_le cs b hb.2 hb.1]
      simp only [ih, List.length_drop]
      rw [Nat.mod_eq_sub_mod hb.1]
  | case2 b hb =>
      have hlt : b.length < cs := by omega
      rw [splitFull_of_lt cs b hlt, Nat.mod_eq_of_lt hlt]

/-- Ceiling division spelled with floor division. -/
theorem add_div_ceil_eq (cs : Nat) (hcs : 0 < cs) (L : Nat) :
    (L + cs - 1) / cs = L / cs + (if L % cs = 0 then 0 else 1) := by
  have hdm := Nat.div_add_mod L cs
  rcases Nat.eq_zero_or_pos (L % cs) with hr | hr
  · have h2 : L + cs - 1 = cs * (L / cs) + (cs - 1) := by omega
    have h3 : (cs - 1) / cs = 0 := Nat.div_eq_of_lt (by omega)
    rw [h2, Nat.mul_add_div hcs, h3]
    simp [hr]
  · have hms : cs * (L / cs + 1) = cs * (L / cs) + cs := by ring
    have h2 : L + cs - 1 = cs * (L / cs + 1) + (L % cs - 1) := by omega
    have h3 : (L % cs - 1) / cs = 0 := by
      have := Nat.mod_lt L hcs
      exact Nat.div_eq_of_lt (by omega)
    rw [h2, Nat.mul_add_div hcs, h3]
    have hne : ¬ L % cs = 0 := by omega
    simp [hne]

/-- The number of chunks is the size divided by chunkSize, rounded up. -/
theorem chunksOf_length (cs : Nat) (hcs : 0 < cs) (b : List Byte) :
    (chunksOf cs b).length = (b.length + cs - 1) / cs := by
  unfold chunksOf
  rw [add_div_ceil_eq cs hcs]
  by_cases h : (splitFull cs b).2 = []
  · have hr : b.length % cs = 0 := by
      rw [← splitFull_snd_length cs hcs b, h]
      rfl
    simp only [h, if_pos, hr, splitFull_fst_length cs hcs b]
    simp
  · have hr : ¬ b.length % cs = 0 := by
      rw [← splitFull_snd_length cs hcs b]
      simp [h]
    simp only [h, if_neg, not_false_iff, hr, List.length_append,
      splitFull_fst_length cs hcs b, List.length_singleton]

/-! ## The writer loop realises the pure chunking specification -/

/-- writeLoop appends exactly the full chunks of buffer ++ p to the hash
and size lists, writes them to the shard store in order, and leaves the
residue in the buffer. -/
theorem writeLoop_spec (cs : Nat) (hcs : 0 < cs) (sst : ShardStore)
    (hashes : List Chunk) (sizes : List Nat) (buffer : List Byte)
    (p : List Byte) (hbuf : buffer.length < cs) :
    writeLoop cs hcs sst hashes sizes buffer p =
      ((splitFull cs (buffer ++ p)).1.foldl shardWrite sst,
       hashes ++ (splitFull cs (buffer ++ p)).1,
       sizes ++ (splitFull cs (buffer ++ p)).1.map List.length,
       (splitFull cs (buffer ++ p)).2) := by
  induction sst, hashes, sizes, buffer, p using writeLoop.induct cs hcs with
  | case1 sst hashes sizes buffer =>
      rw [writeLoop]
      simp only [dif_pos rfl, List.append_nil]
      rw [splitFull_of_lt cs buffer hbuf]
      simp
  | case2 sst hashes sizes buffer p hp hlt =>
      rw [writeLoop, dif_neg hp, if_pos hlt]
      rw [splitFull_of_lt cs (buffer ++ p) (by simp only [List.length_append]; omega)]
      simp
  | case3 sst hashes sizes buffer p hp hlt ih =>
      rw [writeLoop, dif_neg hp, if_neg hlt]
      have hsp : cs - buffer.length ≤ p.length := by omega
      have hb2 : (buffer ++ p.take (cs - buffer.length)).length = cs := by
        simp only [List.length_append, List.length_take]
        omega
      have hb2ne : buffer ++ p.take (cs - buffer.length) ≠ [] := by
        intro h
        rw [h] at hb2
        simp only [List.length_nil] at hb2
        omega
      have hflush : flushAcc sst hashes sizes (buffer ++ p.take (cs - buffer.length)) =
          (shardWrite sst (buffer ++ p.take (cs - buffer.length)),
           hashes ++ [buffer ++ p.take (cs - buffer.length)],
           sizes ++ [cs]) := by
        rw [flushAcc, if_neg hb2ne]
        simp [sha256Model, hb2]
      rw [hflush] at ih ⊢
      rw [ih (by simp only [List.length_nil]; omega)]
      have htake : (buffer ++ p).take cs = buffer ++ p.take (cs - buffer.length) := by
        rw [List.take_append_eq_append_take, List.take_all_of_le (by omega)]
      have hdrop : (buffer ++ p).drop cs = p.drop (cs - buffer.length) := by
        rw [List.drop_append_eq_append_drop, List.drop_eq_nil_of_le (by omega)]
        simp
      rw [splitFull_of_le cs (buffer ++ p) hcs (by simp only [List.length_append]; omega),
        htake, hdrop]
      simp only [List.foldl_cons, List.map_cons, List.nil_append, hb2,
        List.append_assoc, List.singleton_append]

/-- A sequence of Write calls on a writer whose accumulated byte stream is
b extends the accumulated stream by the flattened writes. -/
theorem applyWrites_spec (cs : Nat) (hcs : 0 < cs) (sst : ShardStore)
    (h0 : List Chunk) (s0 : List Nat) (n0 : Nat) (b : List Byte)
    (ps : List (List Byte)) :
    applyWrites cs hcs ((splitFull cs b).1.foldl shardWrite sst)
        ⟨h0 ++ (splitFull cs b).1, s0 ++ (splitFull cs b).1.map List.length,
         n0 + b.length, (splitFull cs b).2⟩ ps =
      ((splitFull cs (b ++ ps.flatten)).1.foldl shardWrite sst,
       ⟨h0 ++ (splitFull cs (b ++ ps.flatten)).1,
        s0 ++ (splitFull cs (b ++ ps.flatten)).1.map List.length,
        n0 + (b ++ ps.flatten).length, (splitFull cs (b ++ ps.flatten)).2⟩) := by
  induction ps generalizing b with
  | nil =>
      simp [applyWrites]
  | cons p rest ih =>
      rw [applyWrites, List.foldl_cons]
      have hw : shardedWriter.Write cs hcs ((splitFull cs b).1.foldl shardWrite sst)
          ⟨h0 ++ (splitFull cs b).1, s0 ++ (splitFull cs b).1.map List.length,
           n0 + b.length, (splitFull cs b).2⟩ p =
          ((splitFull cs (b ++ p)).1.foldl shardWrite sst,
           ⟨h0 ++ (splitFull cs (b ++ p)).1,
            s0 ++ (splitFull cs (b ++ p)).1.map List.length,
            n0 + (b ++ p).length, (splitFull cs (b ++ p)).2⟩) := by
        unfold shardedWriter.Write
        rw [writeLoop_spec cs hcs _ _ _ _ _ (splitFull_snd_lt cs hcs b)]
        rw [splitFull_append cs b p]
        simp only [List.foldl_append, List.map_append, List.append_assoc,
          List.length_append, Nat.add_assoc]
      rw [hw]
      have := ih (b ++ p)
      rw [applyWrites] at this
      rw [this]
      simp [List.append_assoc]

/-- Writes from a fresh-buffer writer followed by Close: the shard store
gains exactly the chunk decomposition of the written stream, and the
manifest extends the seed hashes and sizes by that decomposition. -/
theorem close_applyWrites_spec (cs : Nat) (hcs : 0 < cs) (sst : ShardStore)
    (mst : ManifestStore) (path : String) (h0 : List Chunk) (s0 : List Nat)
    (n0 : Nat) (ps : List (List Byte)) :
    shardedWriter.Close (applyWrites cs hcs sst ⟨h0, s0, n0, []⟩ ps).1 mst path
        (applyWrites cs hcs sst ⟨h0, s0, n0, []⟩ ps).2 =
      ((chunksOf cs ps.flatten).foldl shardWrite sst,
       insertM mst path (MFile.good
         ⟨h0 ++ chunksOf cs ps.flatten,
          s0 ++ (chunksOf cs ps.flatten).map List.length,
          n0 + ps.flatten.length⟩)) := by
  have h1 : applyWrites cs hcs sst ⟨h0, s0, n0, []⟩ ps =
      ((splitFull cs ps.flatten).1.foldl shardWrite sst,
       ⟨h0 ++ (splitFull cs ps.flatten).1,
        s0 ++ (splitFull cs ps.flatten).1.map List.length,
        n0 + ps.flatten.length, (splitFull cs ps.flatten).2⟩) := by
    have := applyWrites_spec cs hcs sst h0 s0 n0 [] ps
    rw [splitFull_nil] at this
    simpa using this
  rw [h1]
  unfold shardedWriter.Close chunksOf
  by_cases hres : (splitFull cs ps.flatten).2 = []
  · simp [hres, flushAcc]
  · simp [hres, flushAcc, sha256Model, List.append_assoc]

/-! ## Shard store lemmas -/

theorem mem_shardWrite (sst : ShardStore) (h c : Chunk) :
    c ∈ shardWrite sst h ↔ c ∈ sst ∨ c = h := by
  unfold shardWrite
  by_cases hm : h ∈ sst
  · simp only [if_pos hm]
    constructor
    · intro hc
      exact Or.inl hc
    · rintro (hc | rfl)
      · exact hc
      · exact hm
  · simp [if_neg hm]

theorem mem_foldl_shardWrite_of_mem (l : List Chunk) (sst : ShardStore)
    (c : Chunk) (hc : c ∈ sst) : c ∈ l.foldl shardWrite sst := by
  induction l generalizing sst with
  | nil => exact hc
  | cons a l ih =>
      rw [List.foldl_cons]
      exact ih _ ((mem_shardWrite sst a c).mpr (Or.inl hc))

theorem mem_foldl_shardWrite_of_mem_list (l : List Chunk) (sst : ShardStore)
    (c : Chunk) (hc : c ∈ l) : c ∈ l.foldl shardWrite sst := by
  induction l generalizing sst with
  | nil => simp at hc
  | cons a l ih =>
      rw [List.foldl_cons]
      rcases List.mem_cons.mp hc with rfl | hc
      · exact mem_foldl_shardWrite_of_mem l _ c
          ((mem_shardWrite sst c c).mpr (Or.inr rfl))
      · exact ih _ hc

theorem mem_foldl_shardWrite (l : List Chunk) (sst : ShardStore) (c : Chunk) :
    c ∈ l.foldl shardWrite sst ↔ c ∈ sst ∨ c ∈ l := by
  constructor
  · intro hc
    induction l generalizing sst with
    | nil => exact Or.inl hc
    | cons a l ih =>
        rw [List.foldl_cons] at hc
        rcases ih _ hc with hm | hm
        · rcases (mem_shardWrite sst a c).mp hm with hm2 | rfl
          · exact Or.inl hm2
          · exact Or.inr (List.mem_cons_self _ _)
        · exact Or.inr (List.mem_cons_of_mem _ hm)
  · rintro (hc | hc)
    · exact mem_foldl_shardWrite_of_mem l sst c hc
    · exact mem_foldl_shardWrite_of_mem_list l sst c hc

/-- Writing only already-present shards leaves the store unchanged
(idempotence of content-addressed writes). -/
theorem foldl_shardWrite_of_subset (l : List Chunk) (sst : ShardStore)
    (h : ∀ c ∈ l, c ∈ sst) : l.foldl shardWrite sst = sst := by
  induction l with
  | nil => rfl
  | cons a l ih =>
      rw [List.foldl_cons]
      rw [shardWrite, if_pos (h a (List.mem_cons_self _ _))]
      exact ih (fun c hc => h c (List.mem_cons_of_mem _ hc))

theorem nodup_shardWrite (sst : ShardStore) (h : Chunk) (hn : sst.Nodup) :
    (shardWrite sst h).Nodup := by
  unfold shardWrite
  by_cases hm : h ∈ sst
  · simpa [if_pos hm] using hn
  · rw [if_neg hm]
    simp [List.nodup_append, hn, hm]

theorem nodup_foldl_shardWrite (l : List Chunk) (sst : ShardStore)
    (hn : sst.Nodup) : (l.foldl shardWrite sst).Nodup := by
  induction l generalizing sst with
  | nil => exact hn
  | cons a l ih =>
      rw [List.foldl_cons]
      exact ih _ (nodup_shardWrite sst a hn)

/-! ## Manifest store lemmas -/

theorem lookupM_insertM_self (mst : ManifestStore) (p : String) (f : MFile) :
    lookupM (insertM mst p f) p = some f := by
  unfold lookupM insertM
  rw [List.find?_append]
  have h1 : (mst.filter (fun e => e.1 ≠ p)).find? (fun e => e.1 = p) = none := by
    rw [List.find?_eq_none]
    intro e he
    have := List.of_mem_filter he
    simp only [ne_eq, decide_not, Bool.not_eq_true'] at this
    simpa using this
  rw [h1]
  simp

theorem find?_filter_ne (mst : ManifestStore) (p q : String) (hne : q ≠ p) :
    (mst.filter (fun e => e.1 ≠ p)).find? (fun e => e.1 = q) =
      mst.find? (fun e => e.1 = q) := by
  induction mst with
  | nil => rfl
  | cons e rest ih =>
      by_cases hep : e.1 = p
      · have h1 : List.filter (fun e => decide (e.1 ≠ p)) (e :: rest) =
            List.filter (fun e => decide (e.1 ≠ p)) rest := by
          rw [List.filter_cons_of_neg]
          simp [hep]
        have h2 : List.find? (fun e => decide (e.1 = q)) (e :: rest) =
            List.find? (fun e => decide (e.1 = q)) rest := by
          rw [List.find?_cons_of_neg]
          simp only [decide_eq_true_eq]
          rw [hep]
          exact fun h => hne h.symm
        rw [h1, h2]
        exact ih
      · have h1 : List.filter (fun e => decide (e.1 ≠ p)) (e :: rest) =
            e :: List.filter (fun e => decide (e.1 ≠ p)) rest := by
          rw [List.filter_cons_of_pos]
          simp [hep]
        rw [h1]
        by_cases heq : e.1 = q
        · rw [List.find?_cons_of_pos _ (by simp [heq]),
            List.find?_cons_of_pos _ (by simp [heq])]
        · rw [List.find?_cons_of_neg _ (by simp [heq]),
            List.find?_cons_of_neg _ (by simp [heq])]
          exact ih

theorem lookupM_insertM_ne (mst : ManifestStore) (p q : String) (f : MFile)
    (hne : q ≠ p) : lookupM (insertM mst p f) q = lookupM mst q := by
  unfold lookupM insertM
  rw [List.find?_append]
  have h2 : ([(p, f)].find? (fun e => e.1 = q)) = none := by
    simp [Ne.symm hne]
  rw [h2, find?_filter_ne mst p q hne]
  cases mst.find? (fun e => e.1 = q) <;> rfl

theorem lookupM_removeM_self (mst : ManifestStore) (p : String) :
    lookupM (removeM mst p) p = none := by
  unfold lookupM removeM
  rw [List.find?_eq_none.mpr]
  · rfl
  · intro e he
    have h3 := List.of_mem_filter he
    simp only [ne_eq, decide_not, Bool.not_eq_true', decide_eq_false_iff_not] at h3
    simp [h3]

theorem lookupM_removeM_ne (mst : ManifestStore) (p q : String) (hne : q ≠ p) :
    lookupM (removeM mst p) q = lookupM mst q := by
  unfold lookupM removeM
  rw [find?_filter_ne mst p q hne]

/-- A successful lookup yields an entry of the store. -/
theorem lookupM_mem (mst : ManifestStore) (p : String) (f : MFile)
    (h : lookupM mst p = some f) : (p, f) ∈ mst := by
  unfold lookupM at h
  cases hfind : mst.find? (fun e => e.1 = p) with
  | none =>
      rw [hfind] at h
      simp at h
  | some e =>
      rw [hfind] at h
      simp only [Option.map_some', Option.some_inj] at h
      have hmem := List.mem_of_find?_eq_some hfind
      have hp := List.find?_some hfind
      simp only [decide_eq_true_eq] at hp
      have : e = (p, f) := by
        cases e
        dsimp only at hp h
        rw [hp, h]
      rw [← this]
      exact hmem

/-! ## Reader lemmas -/

/-- The chunk scan of shardedReader.Read, characterised against the
flattened content: for an in-range offset it finds the chunk containing the
offset, and dropping the offset from the flattened content is dropping the
intra-chunk offset from that chunk followed by the remaining chunks. -/
theorem findChunk_spec (cl : List Chunk) (off : Nat)
    (hoff : off < cl.flatten.length) :
    ∃ i o, findChunk (cl.map List.length) off = some (i, o) ∧
      i < cl.length ∧ o < (cl.getD i []).length ∧
      (cl.map List.length).getD i 0 = (cl.getD i []).length ∧
      cl.flatten.drop off = (cl.getD i []).drop o ++ (cl.drop (i + 1)).flatten := by
  induction cl generalizing off with
  | nil => simp at hoff
  | cons c rest ih =>
      rw [List.flatten_cons, List.length_append] at hoff
      by_cases hc : off < c.length
      · refine ⟨0, off, ?_, ?_, ?_, ?_, ?_⟩
        · rw [List.map_cons, findChunk, if_pos hc]
        · simp
        · simpa using hc
        · simp
        · rw [List.flatten_cons,
            List.drop_append_of_le_length (Nat.le_of_lt hc)]
          simp
      · have hoff2 : off - c.length < rest.flatten.length := by omega
        obtain ⟨i, o, hfind, hi, ho, hgd, hdrop⟩ := ih (off - c.length) hoff2
        refine ⟨i + 1, o, ?_, ?_, ?_, ?_, ?_⟩
        · rw [List.map_cons, findChunk, if_neg hc, hfind]
          rfl
        · simpa using hi
        · simpa using ho
        · simpa using hgd
        · rw [List.flatten_cons, List.drop_append_eq_append_drop,
            List.drop_eq_nil_of_le (by omega)]
          simpa using hdrop

/-- The read loop over a well-formed manifest (chunk sizes are the chunk
lengths, total size the flattened length, all shards present) returns the
next min(n, size - off) bytes of the flattened content and advances the
offset accordingly, with no error. -/
theorem readLoop_spec (cs : Nat) (sst : ShardStore) (cl : List Chunk)
    (hmem : ∀ c ∈ cl, c ∈ sst) (n : Nat) (off : Nat)
    (hoff : off ≤ cl.flatten.length) :
    readLoop cs sst ⟨cl, cl.map List.length, cl.flatten.length⟩ off n =
      ((cl.flatten.drop off).take n,
       off + min n (cl.flatten.length - off), none) := by
  induction n using Nat.strong_induction_on generalizing off with
  | _ n ihn =>
  by_cases hstop : n = 0 ∨ cl.flatten.length ≤ off
  · rw [readLoop]
    dsimp only
    rw [dif_pos hstop]
    rcases hstop with rfl | hle
    · simp
    · have : off = cl.flatten.length := by omega
      subst this
      simp
  · push_neg at hstop
    obtain ⟨hn0, hofflt⟩ := hstop
    have hoff2 : off < cl.flatten.length := hofflt
    obtain ⟨i, o, hfind, hi, ho, hgd, hdrop⟩ := findChunk_spec cl off hoff2
    have hclne : cl ≠ [] := by
      intro h
      subst h
      simp at hoff2
    have hlen : (cl.map List.length).length ≠ 0 := by
      simpa using hclne
    have hopen : shardOpen sst (cl.getD i []) = some (cl.getD i []) :=
      if_pos (hmem _ (getD_mem_of_lt cl i [] hi))
    have hnle : ¬ cl.flatten.length ≤ off := by omega
    rw [readLoop]
    dsimp only
    rw [dif_neg (by push_neg; exact ⟨hn0, by omega⟩)]
    rw [if_pos hlen, hfind]
    dsimp only
    rw [if_neg (by omega : ¬ cl.length ≤ i), hopen]
    dsimp only
    rw [if_pos hlen, hgd]
    have hk : ((cl.getD i []).drop o).length = (cl.getD i []).length - o := by
      simp
    set D := (cl.getD i []).drop o with hD
    set T := (cl.drop (i + 1)).flatten with hT
    have hd1 : 1 ≤ D.length := by
      rw [hD]
      simp only [List.length_drop]
      omega
    have hflatlen : cl.flatten.length - off = D.length + T.length := by
      have := congrArg List.length hdrop
      simp only [List.length_drop, List.length_append] at this
      omega
    have hdata : (D.take (min ((cl.getD i []).length - o) n)).length = min D.length n := by
      simp only [List.length_take, hD, List.length_drop]
      omega
    have hkne : ¬ (D.take (min ((cl.getD i []).length - o) n)).length = 0 := by
      rw [hdata]
      omega
    rw [dif_neg hkne]
    rw [hdata]
    rw [ihn (n - min D.length n) (by omega) (off + min D.length n) (by omega)]
    simp only [Prod.mk.injEq]
    refine ⟨?_, ?_, trivial⟩
    · rw [hdrop]
      by_cases hcase : n ≤ D.length
      · have hmin : min D.length n = n := by omega
        have hmin2 : min ((cl.getD i []).length - o) n = n := by
          rw [hD] at hmin
          simp only [List.length_drop] at hmin
          omega
        rw [hmin, hmin2, Nat.sub_self]
        simp only [List.take_zero, List.append_nil]
        rw [List.take_append_of_le_length (by omega)]
      · have hmin : min D.length n = D.length := by omega
        have hmin2 : min ((cl.getD i []).length - o) n = D.length := by
          rw [hD]
          simp only [List.length_drop]
          omega
        have hdropDT : (D ++ T).drop D.length = T := by
          rw [List.drop_append_eq_append_drop, List.drop_eq_nil_of_le (by omega)]
          simp
        rw [hmin, hmin2, List.take_all_of_le (by omega : D.length ≤ D.length),
          ← List.drop_drop D.length off cl.flatten, hdrop, hdropDT,
          List.take_append_eq_append_take,
          List.take_all_of_le (by omega : D.length ≤ n)]
    · omega

/-- Reading the whole file through the stitching reader returns the
flattened chunks, for a well-formed manifest whose shards are present. -/
theorem engineReadFull_spec (cs : Nat) (sst : ShardStore) (cl : List Chunk)
    (hmem : ∀ c ∈ cl, c ∈ sst) :
    engineReadFull cs sst ⟨cl, cl.map List.length, cl.flatten.length⟩ =
      cl.flatten := by
  unfold engineReadFull shardedReader.Read
  by_cases h : cl.flatten.length = 0
  · dsimp only
    rw [if_pos (by omega)]
    have : cl.flatten = [] := List.length_eq_zero.mp h
    rw [this]
  · dsimp only
    rw [if_neg (by omega)]
    rw [readLoop_spec cs sst cl hmem _ 0 (by omega)]
    simp

/-- Engine.Create (truncate) always starts from an empty writer. -/
theorem engineOpenFile_trunc (cs : Nat) (mst : ManifestStore) (path : String) :
    engineOpenFile cs mst path createTruncFlags =
      ⟨[], [], 0, []⟩ := by
  unfold engineOpenFile createTruncFlags
  cases lookupM mst path with
  | none => rfl
  | some f => simp

/-- OpenFile in append mode on a missing or unparseable manifest silently
starts from an empty writer. -/
theorem engineOpenFile_append_fresh (cs : Nat) (mst : ManifestStore)
    (path : String)
    (h : lookupM mst path = none ∨ lookupM mst path = some MFile.corrupt) :
    engineOpenFile cs mst path createAppendFlags = ⟨[], [], 0, []⟩ := by
  unfold engineOpenFile
  rcases h with h | h <;> rw [h]
  simp [createAppendFlags]

/-- Seeding from a manifest whose chunk sizes list the chunk lengths never
triggers the legacy uniform synthesis. -/
theorem seedWriter_of_wf (cs : Nat) (m : Manifest)
    (hwf : m.chunkSizes = m.chunks.map List.length) :
    seedWriter cs m = ⟨m.chunks, m.chunkSizes, m.size, []⟩ := by
  unfold seedWriter
  have : ¬ (m.chunkSizes.length = 0 ∧ 0 < m.chunks.length) := by
    rw [hwf, List.length_map]
    omega
  simp only [this, if_neg, not_false_eq_true]

/-- Closed form of a truncate session: the manifest store gains a manifest
listing exactly the chunk decomposition of the written stream with its
lengths and total length, and the shard store gains those chunks. -/
theorem sessionTrunc_spec (cs : Nat) (hcs : 0 < cs) (mst : ManifestStore)
    (sst : ShardStore) (path : String) (ps : List (List Byte)) :
    sessionTrunc cs hcs mst sst path ps =
      (insertM mst path (MFile.good
        ⟨chunksOf cs ps.flatten,
         (chunksOf cs ps.flatten).map List.length,
         ps.flatten.length⟩),
       (chunksOf cs ps.flatten).foldl shardWrite sst) := by
  unfold sessionTrunc runSession
  rw [engineOpenFile_trunc]
  dsimp only
  rw [close_applyWrites_spec cs hcs sst mst path [] [] 0 ps]
  simp

/-- Closed form of an append session over a well-formed existing manifest:
the prior chunks are kept and the decomposition of the new stream is
appended, both in the manifest and (for the new chunks) in the shard
store. -/
theorem sessionAppend_spec (cs : Nat) (hcs : 0 < cs) (mst : ManifestStore)
    (sst : ShardStore) (path : String) (ps : List (List Byte)) (m : Manifest)
    (hlook : lookupM mst path = some (MFile.good m))
    (hwf : m.chunkSizes = m.chunks.map List.length) :
    sessionAppend cs hcs mst sst path ps =
      (insertM mst path (MFile.good
        ⟨m.chunks ++ chunksOf cs ps.flatten,
         m.chunkSizes ++ (chunksOf cs ps.flatten).map List.length,
         m.size + ps.flatten.length⟩),
       (chunksOf cs ps.flatten).foldl shardWrite sst) := by
  unfold sessionAppend runSession
  have hopen : engineOpenFile cs mst path createAppendFlags =
      ⟨m.chunks, m.chunkSizes, m.size, []⟩ := by
    unfold engineOpenFile
    rw [hlook]
    dsimp only
    have hcond : (createAppendFlags.append ∧ ¬ createAppendFlags.trunc) := by
      simp [createAppendFlags]
    rw [if_pos hcond]
    exact seedWriter_of_wf cs m hwf
  rw [hopen]
  dsimp only
  rw [close_applyWrites_spec cs hcs sst mst path m.chunks m.chunkSizes m.size ps]

/-- Append on a missing or unparseable manifest behaves exactly like a
truncate session. -/
theorem sessionAppend_fresh (cs : Nat) (hcs : 0 < cs) (mst : ManifestStore)
    (sst : ShardStore) (path : String) (ps : List (List Byte))
    (h : lookupM mst path = none ∨ lookupM mst path = some MFile.corrupt) :
    sessionAppend cs hcs mst sst path ps = sessionTrunc cs hcs mst sst path ps := by
  unfold sessionAppend sessionTrunc runSession
  rw [engineOpenFile_append_fresh cs mst path h, engineOpenFile_trunc]

/-- Auxiliary: the session manifest is well-formed in the reader's sense. -/
theorem session_manifest_wf (cs : Nat) (B : List Byte) :
    (⟨chunksOf cs B, (chunksOf cs B).map List.length, B.length⟩ : Manifest) =
      ⟨chunksOf cs B, (chunksOf cs B).map List.length,
       (chunksOf cs B).flatten.length⟩ := by
  rw [chunksOf_flatten]

/-- The path used to instantiate witnesses. -/
def wpath : String := "f"

/-- A second path for witnesses needing two logical files. -/
def wpath2 : String := "g"

theorem chunkTwoPos : (0 : Nat) < 2 := by decide

theorem chunkOnePos : (0 : Nat) < 1 := by decide

/-- Round trip of a truncate session, shared by several results below:
opening the written path parses a manifest, and the stitching reader
returns exactly the flattened written bytes. -/
theorem session_roundtrip (cs : Nat) (hcs : 0 < cs) (C : List Byte)
    (ps : List (List Byte)) (hps : ps.flatten = C) (mst : ManifestStore)
    (sst : ShardStore) (path : String) :
    ∃ m, engineOpen (sessionTrunc cs hcs mst sst path ps).1 path =
        Except.ok m ∧
      engineReadFull cs (sessionTrunc cs hcs mst sst path ps).2 m = C := by
  subst hps
  rw [sessionTrunc_spec]
  refine ⟨⟨chunksOf cs ps.flatten, (chunksOf cs ps.flatten).map List.length,
    ps.flatten.length⟩, ?_, ?_⟩
  · unfold engineOpen
    rw [lookupM_insertM_self]
  · rw [session_manifest_wf]
    rw [engineReadFull_spec cs _ (chunksOf cs ps.flatten)
      (fun c hc => mem_foldl_shardWrite_of_mem_list _ _ _ hc)]
    exact chunksOf_flatten cs ps.flatten

/-- C1: writing any content C through a truncate writer session (Create,
Write calls covering C, Close) and then opening the path and reading to
end of stream through the stitching reader returns exactly C, for every
content (hence every size, including 0, 1, chunkSize - 1, chunkSize,
chunkSize + 1 and multi-chunk sizes), every split of C into Write calls,
every starting store pair, and every positive chunk size. -/
theorem c1_write_read_roundtrip (cs : Nat) (hcs : 0 < cs) (C : List Byte)
    (ps : List (List Byte)) (hps : ps.flatten = C) (mst : ManifestStore)
    (sst : ShardStore) (path : String) :
    ∃ m, engineOpen (sessionTrunc cs hcs mst sst path ps).1 path =
        Except.ok m ∧
      engineReadFull cs (sessionTrunc cs hcs mst sst path ps).2 m = C :=
  session_roundtrip cs hcs C ps hps mst sst path

/-- Witness for C1 at chunk size 2 and content [7, 8, 9] (size
chunkSize + 1) written in one Write call into empty stores. -/
theorem c1_write_read_roundtrip_witness :
    (0 : Nat) < 2 ∧ ([[7, 8, 9]] : List (List Byte)).flatten = [7, 8, 9] ∧
    (∃ m, engineOpen (sessionTrunc 2 chunkTwoPos [] [] wpath [[7, 8, 9]]).1 wpath =
        Except.ok m ∧
      engineReadFull 2 (sessionTrunc 2 chunkTwoPos [] [] wpath [[7, 8, 9]]).2 m =
        [7, 8, 9]) :=
  ⟨chunkTwoPos, rfl,
    c1_write_read_roundtrip 2 chunkTwoPos [7, 8, 9] [[7, 8, 9]] rfl [] [] wpath⟩

/-- C8: a writer seek succeeds exactly for whence SeekStart (0) with offset
equal to the current logical size, returning that size (Seek(0, SeekStart)
on an empty writer is the same point); every other offset and whence
combination fails with the unsupported-seek error.  The source's Seek never
writes any writer field, which the state-free signature of
shardedWriter.Seek records. -/
theorem c8_writer_seek (w : shardedWriter) (offset : Int) (whence : Nat) :
    (offset = (w.size : Int) ∧ whence = 0 →
      shardedWriter.Seek w offset whence = Except.ok (w.size : Int)) ∧
    (w.size = 0 ∧ offset = 0 ∧ whence = 0 →
      shardedWriter.Seek w offset whence = Except.ok (w.size : Int)) ∧
    (¬ (whence = 0 ∧ offset = (w.size : Int)) →
      shardedWriter.Seek w offset whence =
        Except.error WSeekErr.unsupported) := by
  refine ⟨?_, ?_, ?_⟩
  · rintro ⟨rfl, rfl⟩
    rw [shardedWriter.Seek, if_pos ⟨rfl, rfl⟩]
  · rintro ⟨hsz, rfl, rfl⟩
    rw [shardedWriter.Seek, if_pos ⟨rfl, by simp [hsz]⟩]
  · intro h
    rw [shardedWriter.Seek, if_neg (by tauto)]
    rw [if_neg]
    rintro ⟨h0, h1, h2⟩
    exact h ⟨h0, by simp [h1, h2]⟩

/-- Witness for C8 on the empty writer: Seek(0, SeekStart) succeeds with 0
and Seek(1, SeekStart) fails unsupported. -/
theorem c8_writer_seek_witness :
    ((0 : Int) = ((⟨[], [], 0, []⟩ : shardedWriter).size : Int) ∧ 0 = 0) ∧
    (¬ ((0 : Nat) = 0 ∧ (1 : Int) = ((⟨[], [], 0, []⟩ : shardedWriter).size : Int))) ∧
    shardedWriter.Seek ⟨[], [], 0, []⟩ 0 0 = Except.ok 0 ∧
    shardedWriter.Seek ⟨[], [], 0, []⟩ 1 0 = Except.error WSeekErr.unsupported :=
  ⟨⟨by decide, rfl⟩, by decide,
    (c8_writer_seek ⟨[], [], 0, []⟩ 0 0).1 ⟨by decide, rfl⟩,
    (c8_writer_seek ⟨[], [], 0, []⟩ 1 0).2.2 (by decide)⟩

/-- C9: the sharded engine constructor New accepts any chunkSize and
silently substitutes the 4 MiB default for every non-positive value, so a
constructed engine always has a strictly positive chunk size. -/
theorem c9_new_chunk_size :
    (∀ c : Int, c ≤ 0 → newChunkSize c = 4194304) ∧
    (∀ c : Int, 0 < newChunkSize c) := by
  constructor
  · intro c hc
    rw [newChunkSize, if_pos hc]
    rfl
  · intro c
    rw [newChunkSize]
    by_cases hc : c ≤ 0
    · rw [if_pos hc]
      decide
    · rw [if_neg hc]
      omega

/-- Witness for C9 at chunkSize 0 and chunkSize 7. -/
theorem c9_new_chunk_size_witness :
    (0 : Int) ≤ 0 ∧ newChunkSize 0 = 4194304 ∧ 0 < newChunkSize 7 :=
  ⟨by decide, c9_new_chunk_size.1 0 (by decide), c9_new_chunk_size.2 7⟩

/-- C10: OpenFile with the append flag on a path whose manifest is missing
or unparseable does not fail: it returns a writer that starts empty, and a
subsequent write-and-close session creates the file exactly as
create-truncate would (identical manifest store and shard store). -/
theorem c10_append_missing (cs : Nat) (hcs : 0 < cs) (mst : ManifestStore)
    (sst : ShardStore) (path : String) (ps : List (List Byte))
    (h : lookupM mst path = none ∨ lookupM mst path = some MFile.corrupt) :
    engineOpenFile cs mst path createAppendFlags = ⟨[], [], 0, []⟩ ∧
    sessionAppend cs hcs mst sst path ps = sessionTrunc cs hcs mst sst path ps :=
  ⟨engineOpenFile_append_fresh cs mst path h,
   sessionAppend_fresh cs hcs mst sst path ps h⟩

/-- Witness for C10 on the empty manifest store. -/
theorem c10_append_missing_witness :
    (lookupM [] wpath = none ∨ lookupM [] wpath = some MFile.corrupt) ∧
    (engineOpenFile 2 [] wpath createAppendFlags = ⟨[], [], 0, []⟩ ∧
     sessionAppend 2 chunkTwoPos [] [] wpath [[5]] =
       sessionTrunc 2 chunkTwoPos [] [] wpath [[5]]) :=
  ⟨Or.inl rfl, c10_append_missing 2 chunkTwoPos [] [] wpath [[5]] (Or.inl rfl)⟩

/-- The uniformity property claimed of engine-produced manifests: every
chunk except possibly the last has length exactly the configured chunk
size, the last chunk has length in [0, chunkSize], and a zero-length last
chunk occurs only with an empty chunks list.  Chunk lengths are the lengths
of the stored shard contents (identified with their hashes by the
content-address model). -/
def ManifestUniform (cs : Nat) (m : Manifest) : Prop :=
  (∀ i, i + 1 < m.chunks.length → (m.chunks.getD i []).length = cs) ∧
  (∀ c, m.chunks.getLast? = some c →
    c.length ≤ cs ∧ (c.length = 0 → m.chunks = []))

/-- C2 (amended): every manifest produced by a single create-truncate
session (Create, Write calls, Close — no append) is uniform: all chunks
except possibly the last have length equal to the configured chunk size
and the last chunk has length in (0, chunkSize]; a zero-length chunk never
occurs, so a zero-length last chunk occurs only for an empty file.  The
original claim quantified over append sequences as well, which the
counterexample refutes. -/
theorem c2_manifest_uniform (cs : Nat) (hcs : 0 < cs) (mst : ManifestStore)
    (sst : ShardStore) (path : String) (ps : List (List Byte)) :
    ∃ m, engineOpen (sessionTrunc cs hcs mst sst path ps).1 path =
        Except.ok m ∧ ManifestUniform cs m := by
  rw [sessionTrunc_spec]
  refine ⟨⟨chunksOf cs ps.flatten, (chunksOf cs ps.flatten).map List.length,
    ps.flatten.length⟩, ?_, ?_, ?_⟩
  · unfold engineOpen
    rw [lookupM_insertM_self]
  · intro i hi
    exact chunksOf_nonlast_length cs ps.flatten i hi
  · intro c hc
    have hmem : c ∈ chunksOf cs ps.flatten := List.mem_of_mem_getLast? hc
    have := chunksOf_mem_length cs hcs ps.flatten c hmem
    exact ⟨this.2, fun h0 => absurd h0 (by omega)⟩

/-- Witness for C2 (amended) with chunk size 2 and a 3-byte write. -/
theorem c2_manifest_uniform_witness :
    (0 : Nat) < 2 ∧
    (∃ m, engineOpen (sessionTrunc 2 chunkTwoPos [] [] wpath [[0, 1, 2]]).1 wpath =
        Except.ok m ∧ ManifestUniform 2 m) :=
  ⟨chunkTwoPos, c2_manifest_uniform 2 chunkTwoPos [] [] wpath [[0, 1, 2]]⟩

/-- Concrete evaluation of the chunk decompositions used by the C2 and C5
counterexamples. -/
theorem chunksOf_two_012 : chunksOf 2 [0, 1, 2] = [[0, 1], [2]] := by
  have h1 : splitFull 2 [2] = ([], [2]) := splitFull_of_lt 2 [2] (by decide)
  have h2 : splitFull 2 [0, 1, 2] = ([[0, 1]], [2]) := by
    rw [splitFull_of_le 2 [0, 1, 2] (by decide) (by decide)]
    rw [show List.drop 2 ([0, 1, 2] : List Byte) = [2] from rfl, h1]
    decide
  rw [chunksOf, h2]
  decide

theorem chunksOf_two_34 : chunksOf 2 [3, 4] = [[3, 4]] := by
  have h2 : splitFull 2 [3, 4] = ([[3, 4]], []) := by
    rw [splitFull_of_le 2 [3, 4] (by decide) (by decide)]
    rw [show List.drop 2 ([3, 4] : List Byte) = [] from rfl, splitFull_nil]
    decide
  rw [chunksOf, h2]
  decide

/-- Concrete closed form of the first session of the C2 counterexample. -/
theorem c2_session1 :
    sessionTrunc 2 chunkTwoPos [] [] wpath [[0, 1, 2]] =
      (insertM [] wpath (MFile.good ⟨[[0, 1], [2]], [2, 1], 3⟩),
       List.foldl shardWrite [] [[0, 1], [2]]) := by
  rw [sessionTrunc_spec]
  rw [show ([[0, 1, 2]] : List (List Byte)).flatten = [0, 1, 2] from rfl,
    chunksOf_two_012]
  decide

/-- C2 counterexample: writing [0, 1, 2] with chunk size 2 and closing,
then appending [3, 4] and closing, produces the manifest with chunk
lengths [2, 1, 2]; its middle (non-last) chunk has length 1, not the chunk
size — so the claim fails for operation sequences that include append. -/
theorem c2_counterexample :
    ∃ m, engineOpen (sessionAppend 2 chunkTwoPos
        (sessionTrunc 2 chunkTwoPos [] [] wpath [[0, 1, 2]]).1
        (sessionTrunc 2 chunkTwoPos [] [] wpath [[0, 1, 2]]).2
        wpath [[3, 4]]).1 wpath = Except.ok m ∧
      ¬ ManifestUniform 2 m := by
  rw [c2_session1]
  dsimp only
  have hlook : lookupM (insertM [] wpath (MFile.good
      ⟨[[0, 1], [2]], [2, 1], 3⟩)) wpath =
      some (MFile.good ⟨[[0, 1], [2]], [2, 1], 3⟩) :=
    lookupM_insertM_self _ _ _
  rw [sessionAppend_spec 2 chunkTwoPos _ _ wpath [[3, 4]] _ hlook rfl]
  rw [show ([[3, 4]] : List (List Byte)).flatten = [3, 4] from rfl,
    chunksOf_two_34]
  dsimp only
  refine ⟨⟨[[0, 1], [2]] ++ [[3, 4]], [2, 1] ++ List.map List.length [[3, 4]],
    3 + ([3, 4] : List Byte).length⟩, ?_, ?_⟩
  · unfold engineOpen
    rw [lookupM_insertM_self]
  · rintro ⟨h1, _⟩
    have h2 := h1 1 (by decide)
    exact absurd h2 (by decide)

/-- The shard store built from an empty pool by one session holds exactly
one file per distinct chunk content. -/
theorem foldl_shardWrite_toFinset (l : List Chunk) (sst : ShardStore) :
    (l.foldl shardWrite sst).toFinset = sst.toFinset ∪ l.toFinset := by
  ext c
  simp only [List.mem_toFinset, Finset.mem_union]
  exact mem_foldl_shardWrite l sst c

/-- C5 (amended): with two engines sharing one shard store (initially
empty) and distinct manifest stores, both writing content C: the second
write leaves the shard store unchanged (idempotence by content address),
and the store holds exactly one shard file per distinct chunk content of
C; when the chunks of C are pairwise distinct this count is
ceil(|C| / chunkSize).  The original claim asserted the count
ceil(|C| / chunkSize) unconditionally, which fails when C repeats a chunk
(see the counterexample). -/
theorem c5_dedup (cs : Nat) (hcs : 0 < cs) (C : List Byte)
    (mstA mstB : ManifestStore) (pA pB : String) :
    (sessionTrunc cs hcs mstB
        (sessionTrunc cs hcs mstA [] pA [C]).2 pB [C]).2 =
      (sessionTrunc cs hcs mstA [] pA [C]).2 ∧
    (sessionTrunc cs hcs mstA [] pA [C]).2.length =
      (chunksOf cs C).toFinset.card ∧
    ((chunksOf cs C).Nodup →
      (sessionTrunc cs hcs mstA [] pA [C]).2.length =
        (C.length + cs - 1) / cs) := by
  have hflat : ([C] : List (List Byte)).flatten = C := by simp
  have hs1 : (sessionTrunc cs hcs mstA [] pA [C]).2 =
      (chunksOf cs C).foldl shardWrite [] := by
    rw [sessionTrunc_spec, hflat]
  have hnodup : ((chunksOf cs C).foldl shardWrite []).Nodup :=
    nodup_foldl_shardWrite _ _ List.nodup_nil
  have hfin : ((chunksOf cs C).foldl shardWrite []).toFinset =
      (chunksOf cs C).toFinset := by
    rw [foldl_shardWrite_toFinset]
    simp
  refine ⟨?_, ?_, ?_⟩
  · rw [sessionTrunc_spec, hflat, hs1]
    exact foldl_shardWrite_of_subset _ _
      (fun c hc => mem_foldl_shardWrite_of_mem_list _ _ _ hc)
  · rw [hs1, ← List.toFinset_card_of_nodup hnodup, hfin]
  · intro hnd
    rw [hs1, ← List.toFinset_card_of_nodup hnodup, hfin,
      List.toFinset_card_of_nodup hnd]
    exact chunksOf_length cs hcs C

/-- Witness for C5 (amended) at chunk size 2 with content [7, 8, 9], whose
two chunks are distinct, written by two engines into one shard pool. -/
theorem c5_dedup_witness :
    (0 : Nat) < 2 ∧ (chunksOf 2 [7, 8, 9]).Nodup ∧
    ((sessionTrunc 2 chunkTwoPos []
        (sessionTrunc 2 chunkTwoPos [] [] wpath [[7, 8, 9]]).2 wpath2
        [[7, 8, 9]]).2 =
      (sessionTrunc 2 chunkTwoPos [] [] wpath [[7, 8, 9]]).2 ∧
    (sessionTrunc 2 chunkTwoPos [] [] wpath [[7, 8, 9]]).2.length =
      (chunksOf 2 [7, 8, 9]).toFinset.card ∧
    ((chunksOf 2 [7, 8, 9]).Nodup →
      (sessionTrunc 2 chunkTwoPos [] [] wpath [[7, 8, 9]]).2.length =
        (([7, 8, 9] : List Byte).length + 2 - 1) / 2)) := by
  have hch : chunksOf 2 [7, 8, 9] = [[7, 8], [9]] := by
    have h1 : splitFull 2 [9] = ([], [9]) := splitFull_of_lt 2 [9] (by decide)
    have h2 : splitFull 2 [7, 8, 9] = ([[7, 8]], [9]) := by
      rw [splitFull_of_le 2 [7, 8, 9] (by decide) (by decide)]
      rw [show List.drop 2 ([7, 8, 9] : List Byte) = [9] from rfl, h1]
      decide
    rw [chunksOf, h2]
    decide
  refine ⟨chunkTwoPos, ?_, c5_dedup 2 chunkTwoPos [7, 8, 9] [] [] wpath wpath2⟩
  rw [hch]
  decide

theorem chunksOf_one_00 : chunksOf 1 [0, 0] = [[0], [0]] := by
  have h0 : splitFull 1 ([] : List Byte) = ([], []) := splitFull_nil 1
  have h1 : splitFull 1 [0] = ([[0]], []) := by
    rw [splitFull_of_le 1 [0] (by decide) (by decide)]
    rw [show List.drop 1 ([0] : List Byte) = [] from rfl, h0]
    decide
  have h2 : splitFull 1 [0, 0] = ([[0], [0]], []) := by
    rw [splitFull_of_le 1 [0, 0] (by decide) (by decide)]
    rw [show List.drop 1 ([0, 0] : List Byte) = [0] from rfl, h1]
    decide
  rw [chunksOf, h2]
  decide

/-- C5 counterexample: with chunk size 1 and content [0, 0] (two equal
chunks), after two engines sharing the pool both write the content, the
shard store holds 1 file, not ceil(2 / 1) = 2 as the claim states. -/
theorem c5_counterexample :
    (sessionTrunc 1 chunkOnePos []
        (sessionTrunc 1 chunkOnePos [] [] wpath [[0, 0]]).2 wpath2
        [[0, 0]]).2.length = 1 ∧
    ¬ (sessionTrunc 1 chunkOnePos []
        (sessionTrunc 1 chunkOnePos [] [] wpath [[0, 0]]).2 wpath2
        [[0, 0]]).2.length =
      (([0, 0] : List Byte).length + 1 - 1) / 1 := by
  have hflat : ([[0, 0]] : List (List Byte)).flatten = [0, 0] := rfl
  have hs1 : (sessionTrunc 1 chunkOnePos [] [] wpath [[0, 0]]).2 = [[0]] := by
    rw [sessionTrunc_spec, hflat, chunksOf_one_00]
    decide
  have hs2 : (sessionTrunc 1 chunkOnePos []
      (sessionTrunc 1 chunkOnePos [] [] wpath [[0, 0]]).2 wpath2
      [[0, 0]]).2 = [[0]] := by
    rw [sessionTrunc_spec, hflat, chunksOf_one_00, hs1]
    decide
  rw [hs2]
  decide

/-- C6: Remove on a logical file path deletes only that path's manifest
file — the path itself is gone, every other path is untouched, and the
shard store is untouched (Engine.Remove only operates on manifestFs, which
the manifest-store-only signature of engineRemove records).  Consequently,
for engines A and B sharing the shard store with distinct manifest stores
that both wrote content C at path P, after A removes P, B's Open and full
read of P still return C. -/
theorem c6_remove_independence (cs : Nat) (hcs : 0 < cs) (C : List Byte)
    (mstA mstB : ManifestStore) (sst : ShardStore) (P : String) :
    (lookupM (engineRemove (sessionTrunc cs hcs mstA sst P [C]).1 P) P = none ∧
     ∀ q, q ≠ P →
       lookupM (engineRemove (sessionTrunc cs hcs mstA sst P [C]).1 P) q =
         lookupM (sessionTrunc cs hcs mstA sst P [C]).1 q) ∧
    (∃ m, engineOpen
        (sessionTrunc cs hcs mstB
          (sessionTrunc cs hcs mstA sst P [C]).2 P [C]).1 P = Except.ok m ∧
      engineReadFull cs
        (sessionTrunc cs hcs mstB
          (sessionTrunc cs hcs mstA sst P [C]).2 P [C]).2 m = C) := by
  have hflat : ([C] : List (List Byte)).flatten = C := by simp
  constructor
  · have hsome : (lookupM (sessionTrunc cs hcs mstA sst P [C]).1 P).isSome := by
      rw [sessionTrunc_spec, hflat]
      dsimp only
      rw [lookupM_insertM_self]
      rfl
    rw [engineRemove, if_pos hsome]
    exact ⟨lookupM_removeM_self _ P, fun q hq => lookupM_removeM_ne _ P q hq⟩
  · exact session_roundtrip cs hcs C [C] hflat mstB
      (sessionTrunc cs hcs mstA sst P [C]).2 P

/-- Witness for C6 at chunk size 2 with content [7, 8] in empty stores. -/
theorem c6_remove_independence_witness :
    (0 : Nat) < 2 ∧
    ((lookupM (engineRemove
        (sessionTrunc 2 chunkTwoPos [] [] wpath [[7, 8]]).1 wpath) wpath = none ∧
      ∀ q, q ≠ wpath →
        lookupM (engineRemove
          (sessionTrunc 2 chunkTwoPos [] [] wpath [[7, 8]]).1 wpath) q =
          lookupM (sessionTrunc 2 chunkTwoPos [] [] wpath [[7, 8]]).1 q) ∧
    (∃ m, engineOpen
        (sessionTrunc 2 chunkTwoPos []
          (sessionTrunc 2 chunkTwoPos [] [] wpath [[7, 8]]).2 wpath
          [[7, 8]]).1 wpath = Except.ok m ∧
      engineReadFull 2
        (sessionTrunc 2 chunkTwoPos []
          (sessionTrunc 2 chunkTwoPos [] [] wpath [[7, 8]]).2 wpath
          [[7, 8]]).2 m = [7, 8])) :=
  ⟨chunkTwoPos, c6_remove_independence 2 chunkTwoPos [7, 8] [] [] [] wpath⟩

/-- C3: for all contents A and B, writing A and closing, then opening the
same path in append mode, writing B and closing, yields a logical file
whose full read-back is bit-for-bit the read-back of writing A ++ B in one
session; sizes agree too (the internal chunk layouts may differ). -/
theorem c3_append_assoc (cs : Nat) (hcs : 0 < cs) (A B : List Byte)
    (mst : ManifestStore) (sst : ShardStore) (path : String) :
    ∃ m2 mt,
      engineOpen (sessionAppend cs hcs
          (sessionTrunc cs hcs mst sst path [A]).1
          (sessionTrunc cs hcs mst sst path [A]).2 path [B]).1 path =
        Except.ok m2 ∧
      engineOpen (sessionTrunc cs hcs mst sst path [A ++ B]).1 path =
        Except.ok mt ∧
      engineReadFull cs (sessionAppend cs hcs
          (sessionTrunc cs hcs mst sst path [A]).1
          (sessionTrunc cs hcs mst sst path [A]).2 path [B]).2 m2 =
        engineReadFull cs (sessionTrunc cs hcs mst sst path [A ++ B]).2 mt ∧
      m2.size = mt.size := by
  have hflatA : ([A] : List (List Byte)).flatten = A := by simp
  have hflatB : ([B] : List (List Byte)).flatten = B := by simp
  have hflatAB : ([A ++ B] : List (List Byte)).flatten = A ++ B := by simp
  have h1 : sessionTrunc cs hcs mst sst path [A] =
      (insertM mst path (MFile.good
        ⟨chunksOf cs A, (chunksOf cs A).map List.length, A.length⟩),
       (chunksOf cs A).foldl shardWrite sst) := by
    rw [sessionTrunc_spec, hflatA]
  have h2 : sessionAppend cs hcs
      (sessionTrunc cs hcs mst sst path [A]).1
      (sessionTrunc cs hcs mst sst path [A]).2 path [B] =
      (insertM (insertM mst path (MFile.good
          ⟨chunksOf cs A, (chunksOf cs A).map List.length, A.length⟩)) path
        (MFile.good
          ⟨chunksOf cs A ++ chunksOf cs B,
           (chunksOf cs A).map List.length ++ (chunksOf cs B).map List.length,
           A.length + B.length⟩),
       (chunksOf cs B).foldl shardWrite ((chunksOf cs A).foldl shardWrite sst)) := by
    rw [h1]
    dsimp only
    rw [sessionAppend_spec cs hcs _ _ path [B]
      ⟨chunksOf cs A, (chunksOf cs A).map List.length, A.length⟩
      (lookupM_insertM_self _ _ _) rfl]
    rw [hflatB]
  have hM2wf : (⟨chunksOf cs A ++ chunksOf cs B,
      (chunksOf cs A).map List.length ++ (chunksOf cs B).map List.length,
      A.length + B.length⟩ : Manifest) =
      ⟨chunksOf cs A ++ chunksOf cs B,
       (chunksOf cs A ++ chunksOf cs B).map List.length,
       ((chunksOf cs A ++ chunksOf cs B).flatten).length⟩ := by
    rw [List.map_append, List.flatten_append, chunksOf_flatten,
      chunksOf_flatten, List.length_append]
  refine ⟨⟨chunksOf cs A ++ chunksOf cs B,
      (chunksOf cs A).map List.length ++ (chunksOf cs B).map List.length,
      A.length + B.length⟩,
    ⟨chunksOf cs (A ++ B), (chunksOf cs (A ++ B)).map List.length,
      (A ++ B).length⟩, ?_, ?_, ?_, ?_⟩
  · rw [h2]
    unfold engineOpen
    rw [lookupM_insertM_self]
  · rw [sessionTrunc_spec, hflatAB]
    unfold engineOpen
    rw [lookupM_insertM_self]
  · rw [h2, sessionTrunc_spec, hflatAB]
    dsimp only
    rw [hM2wf, session_manifest_wf]
    rw [engineReadFull_spec cs _ (chunksOf cs A ++ chunksOf cs B) ?memAB,
      engineReadFull_spec cs _ (chunksOf cs (A ++ B)) ?memT]
    case memAB =>
      intro c hc
      rcases List.mem_append.mp hc with hc | hc
      · exact mem_foldl_shardWrite_of_mem _ _ _
          (mem_foldl_shardWrite_of_mem_list _ _ _ hc)
      · exact mem_foldl_shardWrite_of_mem_list _ _ _ hc
    case memT =>
      intro c hc
      exact mem_foldl_shardWrite_of_mem_list _ _ _ hc
    rw [List.flatten_append, chunksOf_flatten, chunksOf_flatten,
      chunksOf_flatten]
  · dsimp only
    rw [List.length_append]

/-- Witness for C3 at chunk size 2 with A = [1, 2, 3] and B = [4, 5]. -/
theorem c3_append_assoc_witness :
    (0 : Nat) < 2 ∧
    (∃ m2 mt,
      engineOpen (sessionAppend 2 chunkTwoPos
          (sessionTrunc 2 chunkTwoPos [] [] wpath [[1, 2, 3]]).1
          (sessionTrunc 2 chunkTwoPos [] [] wpath [[1, 2, 3]]).2 wpath
          [[4, 5]]).1 wpath = Except.ok m2 ∧
      engineOpen (sessionTrunc 2 chunkTwoPos [] [] wpath
          [[1, 2, 3] ++ [4, 5]]).1 wpath = Except.ok mt ∧
      engineReadFull 2 (sessionAppend 2 chunkTwoPos
          (sessionTrunc 2 chunkTwoPos [] [] wpath [[1, 2, 3]]).1
          (sessionTrunc 2 chunkTwoPos [] [] wpath [[1, 2, 3]]).2 wpath
          [[4, 5]]).2 m2 =
        engineReadFull 2 (sessionTrunc 2 chunkTwoPos [] [] wpath
          [[1, 2, 3] ++ [4, 5]]).2 mt ∧
      m2.size = mt.size) :=
  ⟨chunkTwoPos, c3_append_assoc 2 chunkTwoPos [1, 2, 3] [4, 5] [] [] wpath⟩

/-! ## The manifest/shard consistency invariant (C7) -/

/-- Every hash listed by any manifest present in the manifest store has its
shard present in the shard store.  Membership-based so that it covers every
manifest file in the store, not just the ones a lookup would return. -/
def Consistent (mst : ManifestStore) (sst : ShardStore) : Prop :=
  ∀ e ∈ mst, ∀ m, e.2 = MFile.good m → ∀ c ∈ m.chunks, c ∈ sst

/-- The engine states reachable from empty stores by engine operations,
including runs where a write or a close fails partway: crashedWrites is a
session abandoned before Close (shards persisted, no manifest), and
crashedClose is a Close that crashed after flushing the residual chunk but
before writing the manifest. -/
inductive Reach (cs : Nat) (hcs : 0 < cs) : ManifestStore → ShardStore → Prop where
  | init : Reach cs hcs [] []
  | session {mst sst} (path : String) (fl : OpenFlags) (ps : List (List Byte)) :
      Reach cs hcs mst sst →
      Reach cs hcs (runSession cs hcs mst sst path fl ps).1
        (runSession cs hcs mst sst path fl ps).2
  | crashedWrites {mst sst} (path : String) (fl : OpenFlags)
      (ps : List (List Byte)) :
      Reach cs hcs mst sst →
      Reach cs hcs mst
        (applyWrites cs hcs sst (engineOpenFile cs mst path fl) ps).1
  | crashedClose {mst sst} (path : String) (fl : OpenFlags)
      (ps : List (List Byte)) :
      Reach cs hcs mst sst →
      Reach cs hcs mst (sessionAbortStore cs hcs mst sst path fl ps)
  | copy {mst sst} (src dst : String) (f : MFile) :
      Reach cs hcs mst sst → lookupM mst src = some f →
      Reach cs hcs (insertM mst dst f) sst
  | rename {mst sst} (oldPath newPath : String) :
      Reach cs hcs mst sst →
      Reach cs hcs (engineRename mst oldPath newPath) sst
  | remove {mst sst} (path : String) :
      Reach cs hcs mst sst →
      Reach cs hcs (engineRemove mst path) sst

theorem consistent_mono (mst : ManifestStore) (sst sst' : ShardStore)
    (h : Consistent mst sst) (hsub : ∀ c ∈ sst, c ∈ sst') :
    Consistent mst sst' :=
  fun e he m hm c hc => hsub _ (h e he m hm c hc)

theorem mem_insertM (mst : ManifestStore) (p : String) (f : MFile)
    (e : String × MFile) (he : e ∈ insertM mst p f) :
    e ∈ mst ∨ e = (p, f) := by
  unfold insertM at he
  rcases List.mem_append.mp he with he | he
  · exact Or.inl (List.mem_of_mem_filter he)
  · exact Or.inr (List.mem_singleton.mp he)

theorem flushAcc_store_mono (sst : ShardStore) (hashes : List Chunk)
    (sizes : List Nat) (buffer : List Byte) (c : Chunk) (hc : c ∈ sst) :
    c ∈ (flushAcc sst hashes sizes buffer).1 := by
  unfold flushAcc
  by_cases hb : buffer = []
  · rw [if_pos hb]
    exact hc
  · rw [if_neg hb]
    exact (mem_shardWrite _ _ _).mpr (Or.inl hc)

theorem flushAcc_hashes_origin (sst : ShardStore) (hashes : List Chunk)
    (sizes : List Nat) (buffer : List Byte) (c : Chunk)
    (hc : c ∈ (flushAcc sst hashes sizes buffer).2.1) :
    c ∈ hashes ∨ c ∈ (flushAcc sst hashes sizes buffer).1 := by
  unfold flushAcc at *
  by_cases hb : buffer = []
  · rw [if_pos hb] at *
    exact Or.inl hc
  · rw [if_neg hb] at *
    rcases List.mem_append.mp hc with hc | hc
    · exact Or.inl hc
    · refine Or.inr ?_
      rw [List.mem_singleton.mp hc]
      exact (mem_shardWrite _ _ _).mpr (Or.inr rfl)

theorem writeLoop_store_mono (cs : Nat) (hcs : 0 < cs) (sst : ShardStore)
    (hashes : List Chunk) (sizes : List Nat) (buffer : List Byte)
    (p : List Byte) (c : Chunk) (hc : c ∈ sst) :
    c ∈ (writeLoop cs hcs sst hashes sizes buffer p).1 := by
  induction sst, hashes, sizes, buffer, p using writeLoop.induct cs hcs with
  | case1 sst hashes sizes buffer =>
      rw [writeLoop]
      simpa using hc
  | case2 sst hashes sizes buffer p hp hlt =>
      rw [writeLoop, dif_neg hp, if_pos hlt]
      exact hc
  | case3 sst hashes sizes buffer p hp hlt ih =>
      rw [writeLoop, dif_neg hp, if_neg hlt]
      exact ih (flushAcc_store_mono _ _ _ _ c hc)

theorem writeLoop_hashes_origin (cs : Nat) (hcs : 0 < cs) (sst : ShardStore)
    (hashes : List Chunk) (sizes : List Nat) (buffer : List Byte)
    (p : List Byte) (c : Chunk)
    (hc : c ∈ (writeLoop cs hcs sst hashes sizes buffer p).2.1) :
    c ∈ hashes ∨ c ∈ (writeLoop cs hcs sst hashes sizes buffer p).1 := by
  induction sst, hashes, sizes, buffer, p using writeLoop.induct cs hcs with
  | case1 sst hashes sizes buffer =>
      rw [writeLoop] at hc ⊢
      simp only [dif_pos rfl] at hc ⊢
      exact Or.inl hc
  | case2 sst hashes sizes buffer p hp hlt =>
      rw [writeLoop, dif_neg hp, if_pos hlt] at hc ⊢
      exact Or.inl hc
  | case3 sst hashes sizes buffer p hp hlt ih =>
      rw [writeLoop, dif_neg hp, if_neg hlt] at hc ⊢
      rcases ih hc with hin | hin
      · rcases flushAcc_hashes_origin sst hashes sizes _ c hin with h2 | h2
        · exact Or.inl h2
        · exact Or.inr (writeLoop_store_mono cs hcs _ _ _ _ _ c h2)
      · exact Or.inr hin

theorem applyWrites_store_mono (cs : Nat) (hcs : 0 < cs) (sst : ShardStore)
    (w : shardedWriter) (ps : List (List Byte)) (c : Chunk) (hc : c ∈ sst) :
    c ∈ (applyWrites cs hcs sst w ps).1 := by
  induction ps generalizing sst w with
  | nil => exact hc
  | cons p rest ih =>
      show c ∈ (applyWrites cs hcs (shardedWriter.Write cs hcs sst w p).1
        (shardedWriter.Write cs hcs sst w p).2 rest).1
      refine ih _ _ ?_
      show c ∈ (writeLoop cs hcs sst w.hashes w.chunkSizes w.buffer p).1
      exact writeLoop_store_mono cs hcs _ _ _ _ _ c hc

theorem applyWrites_hashes_origin (cs : Nat) (hcs : 0 < cs)
    (sst : ShardStore) (w : shardedWriter) (ps : List (List Byte)) (c : Chunk)
    (hc : c ∈ (applyWrites cs hcs sst w ps).2.hashes) :
    c ∈ w.hashes ∨ c ∈ (applyWrites cs hcs sst w ps).1 := by
  induction ps generalizing sst w with
  | nil => exact Or.inl hc
  | cons p rest ih =>
      replace hc : c ∈ (applyWrites cs hcs (shardedWriter.Write cs hcs sst w p).1
        (shardedWriter.Write cs hcs sst w p).2 rest).2.hashes := hc
      rcases ih _ _ hc with hin | hin
      · replace hin : c ∈ (writeLoop cs hcs sst w.hashes w.chunkSizes
          w.buffer p).2.1 := hin
        rcases writeLoop_hashes_origin cs hcs sst w.hashes w.chunkSizes
          w.buffer p c hin with h2 | h2
        · exact Or.inl h2
        · refine Or.inr ?_
          show c ∈ (applyWrites cs hcs (shardedWriter.Write cs hcs sst w p).1
            (shardedWriter.Write cs hcs sst w p).2 rest).1
          refine applyWrites_store_mono cs hcs _ _ rest c ?_
          exact h2
      · refine Or.inr ?_
        show c ∈ (applyWrites cs hcs (shardedWriter.Write cs hcs sst w p).1
          (shardedWriter.Write cs hcs sst w p).2 rest).1
        exact hin

theorem engineOpenFile_hashes_origin (cs : Nat) (mst : ManifestStore)
    (path : String) (fl : OpenFlags) (c : Chunk)
    (hc : c ∈ (engineOpenFile cs mst path fl).hashes) :
    ∃ m, lookupM mst path = some (MFile.good m) ∧ c ∈ m.chunks := by
  unfold engineOpenFile at hc
  cases hl : lookupM mst path with
  | none =>
      rw [hl] at hc
      simp at hc
  | some f =>
      rw [hl] at hc
      dsimp only at hc
      by_cases hfl : fl.append ∧ ¬ fl.trunc
      · rw [if_pos hfl] at hc
        cases f with
        | good m =>
            refine ⟨m, rfl, ?_⟩
            unfold seedWriter at hc
            simpa using hc
        | corrupt => simp at hc
      · rw [if_neg hfl] at hc
        simp at hc

/-- One full session preserves the invariant. -/
theorem session_preserves_consistent (cs : Nat) (hcs : 0 < cs)
    (mst : ManifestStore) (sst : ShardStore) (path : String) (fl : OpenFlags)
    (ps : List (List Byte)) (h : Consistent mst sst) :
    Consistent (runSession cs hcs mst sst path fl ps).1
      (runSession cs hcs mst sst path fl ps).2 := by
  unfold runSession shardedWriter.Close
  dsimp only
  intro e he m hm c hc
  have hmono : ∀ d : Chunk, d ∈ sst →
      d ∈ (flushAcc (applyWrites cs hcs sst (engineOpenFile cs mst path fl) ps).1
        (applyWrites cs hcs sst (engineOpenFile cs mst path fl) ps).2.hashes
        (applyWrites cs hcs sst (engineOpenFile cs mst path fl) ps).2.chunkSizes
        (applyWrites cs hcs sst (engineOpenFile cs mst path fl) ps).2.buffer).1 := by
    intro d hd
    exact flushAcc_store_mono _ _ _ _ d
      (applyWrites_store_mono cs hcs sst _ ps d hd)
  rcases mem_insertM _ _ _ _ he with he2 | he2
  · exact hmono c (h e he2 m hm c hc)
  · rw [he2] at hm
    dsimp only at hm
    cases hm
    rcases flushAcc_hashes_origin _ _ _ _ c hc with h2 | h2
    · rcases applyWrites_hashes_origin cs hcs sst _ ps c h2 with h3 | h3
      · obtain ⟨m0, hl0, hc0⟩ := engineOpenFile_hashes_origin cs mst path fl c h3
        exact hmono c (h _ (lookupM_mem mst path _ hl0) m0 rfl c hc0)
      · exact flushAcc_store_mono _ _ _ _ c h3
    · exact h2

/-- C7: after every sequence of engine operations starting from empty
stores — write/close sessions with any flags (create, truncate, append),
sessions abandoned before Close, closes that crashed after the final flush
but before the manifest write, copy, rename and remove — every hash listed
in any manifest present in the manifest store has its shard file present
in the shard store: each shard is persisted before its hash is recorded,
and the manifest is written only at Close. -/
theorem c7_shard_invariant (cs : Nat) (hcs : 0 < cs) (mst : ManifestStore)
    (sst : ShardStore) (h : Reach cs hcs mst sst) : Consistent mst sst := by
  induction h with
  | init =>
      intro e he
      simp at he
  | session path fl ps hr ih =>
      exact session_preserves_consistent cs hcs _ _ path fl ps ih
  | crashedWrites path fl ps hr ih =>
      exact consistent_mono _ _ _ ih
        (fun c hc => applyWrites_store_mono cs hcs _ _ ps c hc)
  | crashedClose path fl ps hr ih =>
      unfold sessionAbortStore
      exact consistent_mono _ _ _ ih
        (fun c hc => flushAcc_store_mono _ _ _ _ c
          (applyWrites_store_mono cs hcs _ _ ps c hc))
  | copy src dst f hr hl ih =>
      intro e he m hm c hc
      rcases mem_insertM _ _ _ _ he with he2 | he2
      · exact ih e he2 m hm c hc
      · rw [he2] at hm
        dsimp only at hm
        exact ih _ (lookupM_mem _ src f hl) m hm c hc
  | rename oldPath newPath hr ih =>
      unfold engineRename
      cases hl : lookupM _ oldPath with
      | some f =>
          intro e he m hm c hc
          rcases mem_insertM _ _ _ _ he with he2 | he2
          · exact ih e (List.mem_of_mem_filter he2) m hm c hc
          · rw [he2] at hm
            dsimp only at hm
            exact ih _ (lookupM_mem _ oldPath f hl) m hm c hc
      | none =>
          intro e he m hm c hc
          obtain ⟨e0, he0, heq⟩ := List.mem_map.mp he
          have hval : e0.2 = MFile.good m := by
            by_cases hpre : (oldPath ++ "/").isPrefixOf e0.1
            · rw [← heq] at hm
              simpa [hpre] using hm
            · rw [← heq] at hm
              simpa [hpre] using hm
          exact ih e0 he0 m hval c hc
  | @remove mst2 sst2 path hr ih =>
      unfold engineRemove
      by_cases hp : (lookupM mst2 path).isSome
      · rw [if_pos hp]
        intro e he
        exact ih e (List.mem_of_mem_filter he)
      · rw [if_neg hp]
        intro e he
        exact ih e (List.mem_of_mem_filter he)

/-- Witness for C7: the state after one create-truncate session writing
[1, 2, 3] from the initial empty state is consistent. -/
theorem c7_shard_invariant_witness :
    Consistent (runSession 2 chunkTwoPos [] [] wpath createTruncFlags [[1, 2, 3]]).1
      (runSession 2 chunkTwoPos [] [] wpath createTruncFlags [[1, 2, 3]]).2 :=
  c7_shard_invariant 2 chunkTwoPos _ _
    (Reach.session wpath createTruncFlags [[1, 2, 3]] Reach.init)

/-! ## Legacy uniform manifests (C4) -/

/-- A chunk list whose first k chunks have length cs and whose last has
length rem maps to the uniform size list. -/
theorem map_length_uniform (cl : List Chunk) (cs rem k : Nat)
    (hn : cl.length = k + 1)
    (huni : ∀ i, i < k → (cl.getD i []).length = cs)
    (hlast : (cl.getD k []).length = rem) :
    cl.map List.length = List.replicate k cs ++ [rem] := by
  induction cl generalizing k with
  | nil => simp at hn
  | cons c rest ih =>
      cases k with
      | zero =>
          have hr : rest = [] := by
            have := hn
            simp only [List.length_cons] at this
            exact List.length_eq_zero.mp (by omega)
          subst hr
          have := hlast
          simp only [List.getD_cons_zero] at this
          simp [this]
      | succ k =>
          have hc : c.length = cs := by
            have := huni 0 (Nat.succ_pos k)
            simpa using this
          have hrest : rest.map List.length = List.replicate k cs ++ [rem] := by
            refine ih k ?_ ?_ ?_
            · simpa using hn
            · intro i hi
              have := huni (i + 1) (by omega)
              simpa using this
            · have := hlast
              simpa using this
          simp only [List.map_cons, hc, hrest, List.replicate_succ,
            List.cons_append]

/-- The chunk scan over a uniform size list is the legacy division
arithmetic. -/
theorem findChunk_replicate (cs : Nat) (hcs : 0 < cs) (k rem off : Nat)
    (hoff : off < k * cs + rem) :
    findChunk (List.replicate k cs ++ [rem]) off =
      if off < k * cs then some (off / cs, off % cs)
      else some (k, off - k * cs) := by
  induction k generalizing off with
  | zero =>
      simp only [List.replicate_zero, List.nil_append, Nat.zero_mul] at *
      rw [findChunk, if_pos (by omega)]
      simp
  | succ k ih =>
      have hmul : (k + 1) * cs = k * cs + cs := by ring
      rw [List.replicate_succ, List.cons_append, findChunk]
      by_cases hlt : off < cs
      · rw [if_pos hlt]
        rw [if_pos (by omega : off < (k + 1) * cs)]
        rw [Nat.div_eq_of_lt hlt, Nat.mod_eq_of_lt hlt]
      · rw [if_neg hlt]
        rw [ih (off - cs) (by omega)]
        by_cases h2 : off - cs < k * cs
        · rw [if_pos h2, if_pos (by omega : off < (k + 1) * cs)]
          have hdiv : off / cs = (off - cs) / cs + 1 :=
            Nat.div_eq_sub_div hcs (by omega)
          have hmod : off % cs = (off - cs) % cs :=
            Nat.mod_eq_sub_mod (by omega)
          simp [hdiv, hmod]
        · rw [if_neg h2, if_neg (by omega : ¬ off < (k + 1) * cs)]
          simp only [Option.map_some', Option.some_inj, Prod.mk.injEq]
          exact ⟨trivial, by omega⟩

theorem getD_replicate_append_lt (cs rem k i : Nat) (hi : i < k) :
    (List.replicate k cs ++ [rem]).getD i 0 = cs := by
  rw [List.getD_append _ _ _ _ (by simpa using hi)]
  rw [List.getD_eq_getElem _ _ (by simpa using hi)]
  simp

theorem getD_replicate_append_last (cs rem k : Nat) :
    (List.replicate k cs ++ [rem]).getD k 0 = rem := by
  rw [List.getD_append_right _ _ _ _ (by simp)]
  simp

/-- The read loop over a legacy manifest (chunkSizes omitted) whose layout
is uniform — first k chunks of length cs, last chunk holding the remainder
size - k*cs — behaves identically to the read loop over the same manifest
with the sizes written out.  No assumption on the shard store is needed:
both readers open the same shards and read the same slices. -/
theorem readLoop_legacy_eq (cs : Nat) (hcs : 0 < cs) (sst : ShardStore)
    (cl : List Chunk) (k : Nat) (size : Nat)
    (hmap : cl.map List.length = List.replicate k cs ++ [size - k * cs])
    (hk : k * cs ≤ size) (hkc : size ≤ k * cs + cs)
    (hsize : size = cl.flatten.length) (n off : Nat) :
    readLoop cs sst ⟨cl, [], size⟩ off n =
      readLoop cs sst ⟨cl, cl.map List.length, size⟩ off n := by
  induction n using Nat.strong_induction_on generalizing off with
  | _ n ihn =>
  by_cases hstop : n = 0 ∨ size ≤ off
  · conv_lhs => rw [readLoop]
    conv_rhs => rw [readLoop]
    dsimp only
    rw [dif_pos hstop, dif_pos hstop]
  · push_neg at hstop
    obtain ⟨hn0, hofflt⟩ := hstop
    have hoff2 : off < cl.flatten.length := by omega
    obtain ⟨i, o, hfind, hi, ho, hgd, hdrop⟩ := findChunk_spec cl off hoff2
    have hfr : findChunk (cl.map List.length) off =
        if off < k * cs then some (off / cs, off % cs)
        else some (k, off - k * cs) := by
      rw [hmap]
      exact findChunk_replicate cs hcs k _ off (by omega)
    have hmul : (k + 1) * cs = k * cs + cs := by ring
    have hio : off / cs = i ∧ off % cs = o := by
      by_cases hcase : off < k * cs
      · rw [hfr, if_pos hcase] at hfind
        simpa [Prod.mk.injEq] using hfind
      · rw [hfr, if_neg hcase] at hfind
        have h2 : k = i ∧ off - k * cs = o := by
          simpa [Prod.mk.injEq] using hfind
        have hdiv : off / cs = k :=
          Nat.div_eq_of_lt_le (by omega) (by omega)
        have hdm := Nat.div_add_mod off cs
        have hcm : cs * k = k * cs := Nat.mul_comm cs k
        constructor
        · omega
        · rw [hdiv] at hdm
          omega
    obtain ⟨hio1, hio2⟩ := hio
    subst hio1
    subst hio2
    have hlen2 : (cl.map List.length).length ≠ 0 := by
      rw [hmap]
      simp
    have hile : off / cs ≤ k := by
      have : off / cs < k + 1 := by
        rw [Nat.div_lt_iff_lt_mul hcs]
        omega
      omega
    have hcontle : (cl.getD (off / cs) []).length ≤ cs := by
      rw [← hgd, hmap]
      rcases Nat.lt_or_ge (off / cs) k with hl | hl
      · rw [getD_replicate_append_lt cs _ k _ hl]
      · have : off / cs = k := by omega
        rw [this, getD_replicate_append_last]
        omega
    conv_lhs => rw [readLoop]
    conv_rhs => rw [readLoop]
    dsimp only
    rw [dif_neg (by push_neg; exact ⟨hn0, by omega⟩),
      dif_neg (by push_neg; exact ⟨hn0, by omega⟩)]
    rw [if_neg (by simp : ¬ (([] : List Nat).length ≠ 0)), if_pos hlen2, hfind]
    dsimp only
    by_cases hbound : cl.length ≤ off / cs
    · exact absurd hbound (by omega)
    · rw [if_neg hbound, if_neg hbound]
      cases hopen : shardOpen sst (cl.getD (off / cs) []) with
      | none => rfl
      | some content =>
          have hcontent : content = cl.getD (off / cs) [] := by
            unfold shardOpen at hopen
            by_cases hmem2 : cl.getD (off / cs) [] ∈ sst
            · rw [if_pos hmem2] at hopen
              exact (Option.some_inj.mp hopen).symm
            · rw [if_neg hmem2] at hopen
              exact absurd hopen (by simp)
          subst hcontent
          dsimp only
          rw [if_neg (by simp : ¬ (([] : List Nat).length ≠ 0)), if_pos hlen2,
            hgd]
          have hdata_eq :
              ((cl.getD (off / cs) []).drop (off % cs)).take
                (min (cs - off % cs) n) =
              ((cl.getD (off / cs) []).drop (off % cs)).take
                (min ((cl.getD (off / cs) []).length - off % cs) n) := by
            rcases le_or_lt n ((cl.getD (off / cs) []).length - off % cs)
              with hle | hlt
            · rw [min_eq_right (by omega), min_eq_right hle]
            · rw [List.take_all_of_le
                  (by simp only [List.length_drop]; omega),
                List.take_all_of_le
                  (by simp only [List.length_drop]; omega)]
          rw [hdata_eq]
          by_cases hzero :
              (((cl.getD (off / cs) []).drop (off % cs)).take
                (min ((cl.getD (off / cs) []).length - off % cs) n)).length = 0
          · rw [dif_pos hzero, dif_pos hzero]
          · rw [dif_neg hzero, dif_neg hzero]
            rw [ihn (n - _) (by
              have h1 : 0 < (((cl.getD (off / cs) []).drop (off % cs)).take
                  (min ((cl.getD (off / cs) []).length - off % cs) n)).length :=
                Nat.pos_of_ne_zero hzero
              omega)]

theorem read_legacy_eq (cs : Nat) (hcs : 0 < cs) (sst : ShardStore)
    (cl : List Chunk) (k : Nat) (size : Nat)
    (hmap : cl.map List.length = List.replicate k cs ++ [size - k * cs])
    (hk : k * cs ≤ size) (hkc : size ≤ k * cs + cs)
    (hsize : size = cl.flatten.length) (off n : Nat) :
    shardedReader.Read cs sst ⟨cl, [], size⟩ off n =
      shardedReader.Read cs sst ⟨cl, cl.map List.length, size⟩ off n := by
  unfold shardedReader.Read
  dsimp only
  by_cases h : size ≤ off
  · rw [if_pos h, if_pos h]
  · rw [if_neg h, if_neg h]
    exact readLoop_legacy_eq cs hcs sst cl k size hmap hk hkc hsize n off

theorem runReader_legacy_eq (cs : Nat) (hcs : 0 < cs) (sst : ShardStore)
    (cl : List Chunk) (k : Nat) (size : Nat)
    (hmap : cl.map List.length = List.replicate k cs ++ [size - k * cs])
    (hk : k * cs ≤ size) (hkc : size ≤ k * cs + cs)
    (hsize : size = cl.flatten.length) (ops : List ROp) (cur : Nat) :
    runReader cs sst ⟨cl, [], size⟩ cur ops =
      runReader cs sst ⟨cl, cl.map List.length, size⟩ cur ops := by
  induction ops generalizing cur with
  | nil => rfl
  | cons op rest ih =>
      cases op with
      | read n =>
          rw [runReader, runReader]
          rw [read_legacy_eq cs hcs sst cl k size hmap hk hkc hsize cur n]
          rw [ih]
      | seek offset whence =>
          rw [runReader, runReader]
          have hseek : shardedReader.Seek ⟨cl, [], size⟩ cur offset whence =
              shardedReader.Seek ⟨cl, cl.map List.length, size⟩ cur offset whence := by
            unfold shardedReader.Seek
            rfl
          rw [hseek]
          cases shardedReader.Seek ⟨cl, cl.map List.length, size⟩ cur offset whence with
          | ok v =>
              dsimp only
              rw [ih]
          | error e =>
              dsimp only
              rw [ih]

/-- C4: a manifest with chunkSizes omitted describing n = k + 1 chunks
where every chunk except the last has the engine's chunk size and the last
holds the remainder size - k*chunkSize (a tail of at most one chunk), and
the same manifest with those sizes written out explicitly, give stitching
readers that return identical outputs — bytes, errors and seek results —
for every sequence of Read and Seek operations from offset 0, over any
shard store. -/
theorem c4_legacy_reader_equiv (cs : Nat) (hcs : 0 < cs) (sst : ShardStore)
    (cl : List Chunk) (k : Nat) (size : Nat)
    (hn : cl.length = k + 1)
    (huni : ∀ i, i < k → (cl.getD i []).length = cs)
    (hlast : (cl.getD k []).length = size - k * cs)
    (hk : k * cs ≤ size) (hkc : size ≤ k * cs + cs) (ops : List ROp) :
    runReader cs sst ⟨cl, [], size⟩ 0 ops =
      runReader cs sst ⟨cl, List.replicate k cs ++ [size - k * cs], size⟩ 0 ops := by
  have hmap : cl.map List.length = List.replicate k cs ++ [size - k * cs] :=
    map_length_uniform cl cs (size - k * cs) k hn huni hlast
  have hsize : size = cl.flatten.length := by
    rw [List.length_flatten, hmap, List.sum_append, List.sum_replicate]
    simp only [smul_eq_mul, List.sum_cons, List.sum_nil]
    omega
  rw [← hmap]
  exact runReader_legacy_eq cs hcs sst cl k size hmap hk hkc hsize ops 0

/-- Witness for C4: chunk size 2, chunks [[1, 2], [3]] (k = 1, size 3),
shards present, operations read 3 bytes, seek to 1, read 5 bytes. -/
theorem c4_legacy_reader_equiv_witness :
    (0 : Nat) < 2 ∧ ([[1, 2], [3]] : List Chunk).length = 1 + 1 ∧
    (∀ i, i < 1 → ((([[1, 2], [3]] : List Chunk).getD i []).length = 2)) ∧
    ((([[1, 2], [3]] : List Chunk).getD 1 []).length = 3 - 1 * 2) ∧
    1 * 2 ≤ 3 ∧ 3 ≤ 1 * 2 + 2 ∧
    runReader 2 [[1, 2], [3]] ⟨[[1, 2], [3]], [], 3⟩ 0
        [ROp.read 3, ROp.seek 1 0, ROp.read 5] =
      runReader 2 [[1, 2], [3]]
        ⟨[[1, 2], [3]], List.replicate 1 2 ++ [3 - 1 * 2], 3⟩ 0
        [ROp.read 3, ROp.seek 1 0, ROp.read 5] :=
  ⟨chunkTwoPos, by decide, by decide, by decide, by decide, by decide,
    c4_legacy_reader_equiv 2 chunkTwoPos [[1, 2], [3]] [[1, 2], [3]] 1 3
      (by decide) (by decide) (by decide) (by decide) (by decide)
      [ROp.read 3, ROp.seek 1 0, ROp.read 5]⟩
